import Mathlib

/-!
Verification development for the `unwind` Python-bytecode disassembler and
decompiler.  The definitions below are a shallow embedding of the Python
source files `unwind/disasm.py`, `unwind/op.py`, `unwind/ast.py` and
`unwind/passes.py`; the theorems settle the specification claims about them.

Conventions of the embedding:
* byte streams are `List Nat`, with each entry the value of one byte
  (`struct.unpack` reads of the source become explicit little-endian
  arithmetic; signed reads subtract the two's-complement bias);
* fallible code (`DisassemblerException`, attribute errors and index errors
  of the source) returns `Except DErr` or `Option`;
* unbounded loops of the source (`while changed`, recursive `unmarshal_node`)
  take an explicit fuel argument; exhausting fuel is a distinguished error,
  and every theorem about such a loop is conditioned on the loop finishing,
  which is the only behaviour the Python code exhibits;
* Python `float` payloads (`g`, `y` marshal tags) are kept as their raw
  bytes: no claim concerns float decoding;
* Python `set()` construction in `unmarshal_collection` is kept as the
  decoded list of members (hash-order and deduplication of the concrete
  Python `set` type are not modelled; no claim depends on them).
-/

namespace Unwind

/-- Error kinds of the disassembler.  Each constructor corresponds to one
`raise DisassemblerException(...)` site (or an uncaught Python-level error:
`truncated` for `struct.error` on a short read, `typeError` for `len()` /
indexing applied to a non-sequence) in `disasm.py`. -/
inductive DErr where
  | truncated
  | unknownMagic (magic : Nat)
  | stringIndex (index : Int)
  | bytecodeNotString (t : Int)
  | unknownBytecode (b : Nat)
  | invalidArgument (argument : Nat) (opcode : String)
  | unknownType (t : Int)
  | typeError
  | outOfFuel
deriving Repr, DecidableEq

/-- `_Disassembler.read_int8`: one byte, two's-complement signed. -/
def readInt8 : List Nat → Except DErr (Int × List Nat)
  | [] => .error .truncated
  | b :: rest => .ok (if b < 128 then (b : Int) else (b : Int) - 256, rest)

/-- `_Disassembler.read_int16`: two bytes little endian, signed (`'=h'`). -/
def readInt16 : List Nat → Except DErr (Int × List Nat)
  | lo :: hi :: rest =>
    let v : Nat := lo + 256 * hi
    .ok (if v < 32768 then (v : Int) else (v : Int) - 65536, rest)
  | _ => .error .truncated

/-- `_Disassembler.read_int32`: four bytes little endian, signed (`'=i'`). -/
def readInt32 : List Nat → Except DErr (Int × List Nat)
  | b0 :: b1 :: b2 :: b3 :: rest =>
    let v : Nat := b0 + 256 * b1 + 65536 * b2 + 16777216 * b3
    .ok (if v < 2147483648 then (v : Int) else (v : Int) - 4294967296, rest)
  | _ => .error .truncated

/-- Four bytes little endian, unsigned: one `I` of the `struct.unpack('=II')`
in `_Disassembler.disassemble`. -/
def readUInt32 : List Nat → Except DErr (Nat × List Nat)
  | b0 :: b1 :: b2 :: b3 :: rest =>
    .ok (b0 + 256 * b1 + 65536 * b2 + 16777216 * b3, rest)
  | _ => .error .truncated

/-- Read `n` raw bytes (`self.file.read(n)` followed by `'B' * n` unpacking). -/
def readBytes (n : Nat) (bytes : List Nat) : Except DErr (List Nat × List Nat) :=
  if n ≤ bytes.length then .ok (bytes.take n, bytes.drop n) else .error .truncated

/-- `_Disassembler.read_byte_array`: an `i32` count then that many raw bytes.
A negative count makes the source's `struct.unpack` crash (it would read the
whole rest of the file but build a zero-field format string); we map that
crash to `truncated`. -/
def readByteArray (bytes : List Nat) : Except DErr (List Nat × List Nat) := do
  let (count, bytes) ← readInt32 bytes
  if count < 0 then .error .truncated
  else readBytes count.toNat bytes

/-- A decoded marshal value (the native Python objects built by
`unmarshal_node`).  `str` holds the byte values of an ASCII string
(`read_string_ascii` maps each byte through `chr`); `unicode` holds the raw
UTF-8 bytes.  A code object keeps every `co_*` field plus the list of
disassembled opcodes `(offset, size, opcode-name, argument)`, where the
argument is `none` for argumentless opcodes, a decoded value (constant or
name-table entry) or a raw integer. -/
inductive MValue where
  | pyNone
  | pyTrue
  | pyFalse
  | int (n : Int)
  | binFloat (bs : List Nat)
  | binComplex (bs : List Nat)
  | str (bs : List Nat)
  | unicode (bs : List Nat)
  | tup (xs : List MValue)
  | lst (xs : List MValue)
  | setV (xs : List MValue)
  | frozensetV (xs : List MValue)
  | code (argcount kwonlyargcount nlocals stacksize flags : Int)
      (co_code : List Nat)
      (consts names varnames freevars cellvars filename name : MValue)
      (firstlineno : Int) (lnotab : MValue)
      (opcodes : List (Nat × Nat × String × Option (MValue ⊕ Nat)))

/-- One disassembled opcode record: offset, size, name, argument. -/
abbrev DisOpcode := Nat × Nat × String × Option (MValue ⊕ Nat)

namespace DisOpcode

def offset (o : DisOpcode) : Nat := o.1

def size (o : DisOpcode) : Nat := o.2.1

def opname (o : DisOpcode) : String := o.2.2.1

def argument (o : DisOpcode) : Option (MValue ⊕ Nat) := o.2.2.2

end DisOpcode

/-- Python `len(...)` on a decoded value (used on the `co_consts` /
`co_names` / `co_varnames` values by the argument bounds checks).  `none`
marks the `TypeError` Python would raise on non-sequence values. -/
def MValue.lenOf : MValue → Option Nat
  | .tup xs => some xs.length
  | .lst xs => some xs.length
  | .setV xs => some xs.length
  | .frozensetV xs => some xs.length
  | .str bs => some bs.length
  | .unicode bs => some bs.length
  | _ => none

/-- Python indexing `v[i]` on a decoded value (tuples and lists as in real
marshal data; indexing an ASCII string yields a one-character string). -/
def MValue.itemAt : MValue → Nat → Option MValue
  | .tup xs, i => xs[i]?
  | .lst xs, i => xs[i]?
  | .str bs, i => (bs[i]?).map (fun b => MValue.str [b])
  | _, _ => none

/-- The opcode table the disassembler consults: `op.from_bytecode` for the
module's fixed magic number, and the global `op.has_argument` set.  The
table's contents are static data the source scrapes at build time; the
decoding logic is parametric in them. -/
structure OpTable where
  opcodeOfByte : Nat → Option String
  hasArgument : String → Bool

/-- The opcodes resolved through the `co_names` table
(`disasm.py` lines 306-309). -/
def nameOpcodes : List String :=
  ["LOAD_NAME", "STORE_NAME", "DELETE_NAME",
   "LOAD_ATTR", "STORE_ATTR", "DELETE_ATTR",
   "LOAD_GLOBAL", "STORE_GLOBAL", "DELETE_GLOBAL",
   "IMPORT_NAME", "IMPORT_FROM"]

/-- The opcodes resolved through the `co_varnames` table
(`disasm.py` line 313). -/
def fastOpcodes : List String := ["LOAD_FAST", "STORE_FAST", "DELETE_FAST"]

/-- Argument resolution for one opcode with argument (`disasm.py`
lines 301-318): constants table for `LOAD_CONST`, name table for the name
family, varnames for the fast family, otherwise the raw integer. -/
def resolveArg (consts names varnames : MValue) (opcode : String) (argument : Nat) :
    Except DErr (Option (MValue ⊕ Nat)) :=
  if opcode = "LOAD_CONST" then
    match consts.lenOf with
    | none => .error .typeError
    | some len =>
      if len ≤ argument then .error (.invalidArgument argument opcode)
      else
        match consts.itemAt argument with
        | some v => .ok (some (.inl v))
        | none => .error .typeError
  else if opcode ∈ nameOpcodes then
    match names.lenOf with
    | none => .error .typeError
    | some len =>
      if len ≤ argument then .error (.invalidArgument argument opcode)
      else
        match names.itemAt argument with
        | some v => .ok (some (.inl v))
        | none => .error .typeError
  else if opcode ∈ fastOpcodes then
    match varnames.lenOf with
    | none => .error .typeError
    | some len =>
      if len ≤ argument then .error (.invalidArgument argument opcode)
      else
        match varnames.itemAt argument with
        | some v => .ok (some (.inl v))
        | none => .error .typeError
  else .ok (some (.inr argument))

/-- The inline bytecode decoding loop of `unmarshal_node` (`disasm.py`
lines 279-322).  `i` is the cursor, `argument` the `EXTENDED_ARG`
accumulator.  An `EXTENDED_ARG` instruction shifts the accumulator and emits
nothing; every other instruction is emitted as `(offset, size, name, arg)`
with `size = 1` or `3` and resets the accumulator. -/
def decodeLoop (t : OpTable) (consts names varnames : MValue) :
    Nat → Nat → List Nat → Except DErr (List DisOpcode)
  | _, _, [] => .ok []
  | i, argument, b :: rest =>
    match t.opcodeOfByte b with
    | none => .error (.unknownBytecode b)
    | some opcode =>
      if t.hasArgument opcode then
        match rest with
        | lo :: hi :: rest2 =>
          let argument := argument ||| (lo ||| (hi <<< 8))
          if opcode = "EXTENDED_ARG" then
            decodeLoop t consts names varnames (i + 3) (argument <<< 16) rest2
          else
            match resolveArg consts names varnames opcode argument with
            | .error e => .error e
            | .ok arg =>
              (decodeLoop t consts names varnames (i + 3) 0 rest2).map
                (fun ops => (i, 3, opcode, arg) :: ops)
        | _ => .error .truncated
      else
        if opcode = "EXTENDED_ARG" then
          decodeLoop t consts names varnames (i + 1) (argument <<< 16) rest
        else
          (decodeLoop t consts names varnames (i + 1) 0 rest).map
            (fun ops => (i, 1, opcode, none) :: ops)
termination_by _ _ bytes => bytes.length

/-- The number of bytecode bytes consumed by `EXTENDED_ARG` instructions
along the decoding loop (3 bytes each when `EXTENDED_ARG` carries an
argument, 1 otherwise).  These bytes belong to no emitted opcode. -/
def extArgBytes (t : OpTable) : List Nat → Nat
  | [] => 0
  | b :: rest =>
    match t.opcodeOfByte b with
    | none => 0
    | some opcode =>
      if t.hasArgument opcode then
        match rest with
        | _ :: _ :: rest2 =>
          (if opcode = "EXTENDED_ARG" then 3 else 0) + extArgBytes t rest2
        | _ => 0
      else
        (if opcode = "EXTENDED_ARG" then 1 else 0) + extArgBytes t rest
termination_by bytes => bytes.length

/-- Decoder context: the opcode table for the module's magic plus the
`op.has_kwonlyargcount` flag for that magic. -/
structure DisCtx where
  table : OpTable
  kwonly : Bool

/-- Eight bytes little endian as a signed 64-bit integer (`'=q'`). -/
def int64OfBytes (bs : List Nat) : Int :=
  let v : Nat := (bs.reverse.foldl (fun acc b => acc * 256 + b) 0)
  if v < 9223372036854775808 then (v : Int) else (v : Int) - 18446744073709551616

/-- The digit loop of the `l` (arbitrary-precision integer) branch of
`unmarshal_node`: read `k` further digits with `read_int16` (signed!),
OR-ing `digit << (i * 15)` into the accumulator `n` exactly as the source's
`n |= digit << (i * 15)` does (Python's shift of a possibly negative `int`
is arithmetic, and `|` is two's-complement OR, which is `Int.lor`). -/
def readLongDigits : Nat → Nat → Int → List Nat → Except DErr (Int × List Nat)
  | 0, _, n, bytes => .ok (n, bytes)
  | k + 1, i, n, bytes => do
    let (digit, bytes) ← readInt16 bytes
    readLongDigits k (i + 1) (Int.lor n (digit <<< (i * 15 : Int))) bytes

/-- The whole `l` branch after its `i32` digit count has been read: zero
count yields 0, otherwise `|count|` digits are accumulated and the result is
negated when the count is negative. -/
def unmarshalLong (nbits : Int) (bytes : List Nat) (tab : List (List Nat)) :
    Except DErr (MValue × List Nat × List (List Nat)) :=
  if nbits = 0 then .ok (.int 0, bytes, tab)
  else
    match readLongDigits nbits.natAbs 0 0 bytes with
    | .error e => .error e
    | .ok (n, bytes) => .ok (.int (if 0 < nbits then n else -n), bytes, tab)

mutual

/-- `_Disassembler.unmarshal_node` (`disasm.py` lines 214-327): dispatch on
the signed tag byte.  Tags absent from the source's `elif` chain — among
them `0`, `S`, `.`, `f`, `x` and the dict tag `0x7B` — fall through to the
final `else` branch, the unknown-type error. -/
def unmarshalNode (ctx : DisCtx) :
    Nat → List Nat → List (List Nat) →
    Except DErr (MValue × List Nat × List (List Nat))
  | 0, _, _ => .error .outOfFuel
  | fuel + 1, bytes, tab => do
    let (t, bytes) ← readInt8 bytes
    if t = 78 then pure (.pyNone, bytes, tab)
    else if t = 84 then pure (.pyTrue, bytes, tab)
    else if t = 70 then pure (.pyFalse, bytes, tab)
    else if t = 40 then do
      let (count, bytes) ← readInt32 bytes
      let (xs, bytes, tab) ← unmarshalItems ctx fuel count.toNat bytes tab
      pure (.tup xs, bytes, tab)
    else if t = 91 then do
      let (count, bytes) ← readInt32 bytes
      let (xs, bytes, tab) ← unmarshalItems ctx fuel count.toNat bytes tab
      pure (.lst xs, bytes, tab)
    else if t = 60 then do
      let (count, bytes) ← readInt32 bytes
      let (xs, bytes, tab) ← unmarshalItems ctx fuel count.toNat bytes tab
      pure (.setV xs, bytes, tab)
    else if t = 62 then do
      let (count, bytes) ← readInt32 bytes
      let (xs, bytes, tab) ← unmarshalItems ctx fuel count.toNat bytes tab
      pure (.frozensetV xs, bytes, tab)
    else if t = 105 then do
      let (n, bytes) ← readInt32 bytes
      pure (.int n, bytes, tab)
    else if t = 73 then do
      let (bs, bytes) ← readBytes 8 bytes
      pure (.int (int64OfBytes bs), bytes, tab)
    else if t = 103 then do
      let (bs, bytes) ← readBytes 8 bytes
      pure (.binFloat bs, bytes, tab)
    else if t = 121 then do
      let (bs, bytes) ← readBytes 16 bytes
      pure (.binComplex bs, bytes, tab)
    else if t = 108 then do
      let (nbits, bytes) ← readInt32 bytes
      unmarshalLong nbits bytes tab
    else if t = 115 then do
      let (bs, bytes) ← readByteArray bytes
      pure (.str bs, bytes, tab)
    else if t = 117 then do
      let (count, bytes) ← readInt32 bytes
      if count < 0 then .error .truncated
      else do
        let (bs, bytes) ← readBytes count.toNat bytes
        pure (.unicode bs, bytes, tab)
    else if t = 116 then do
      let (bs, bytes) ← readByteArray bytes
      pure (.str bs, bytes, tab ++ [bs])
    else if t = 82 then do
      let (index, bytes) ← readInt32 bytes
      if index < 0 ∨ (tab.length : Int) ≤ index then .error (.stringIndex index)
      else
        match tab[index.toNat]? with
        | some bs => pure (.str bs, bytes, tab)
        | none => .error (.stringIndex index)
    else if t = 99 then do
      let (argcount, bytes) ← readInt32 bytes
      let (kwonlyargcount, bytes) ←
        if ctx.kwonly then readInt32 bytes else pure ((0 : Int), bytes)
      let (nlocals, bytes) ← readInt32 bytes
      let (stacksize, bytes) ← readInt32 bytes
      let (flags, bytes) ← readInt32 bytes
      let (t2, bytes) ← readInt8 bytes
      if t2 ≠ 115 then .error (.bytecodeNotString t2)
      else do
        let (codeBytes, bytes) ← readByteArray bytes
        let (consts, bytes, tab) ← unmarshalNode ctx fuel bytes tab
        let (names, bytes, tab) ← unmarshalNode ctx fuel bytes tab
        let (varnames, bytes, tab) ← unmarshalNode ctx fuel bytes tab
        let (freevars, bytes, tab) ← unmarshalNode ctx fuel bytes tab
        let (cellvars, bytes, tab) ← unmarshalNode ctx fuel bytes tab
        let (filename, bytes, tab) ← unmarshalNode ctx fuel bytes tab
        let (name, bytes, tab) ← unmarshalNode ctx fuel bytes tab
        let (firstlineno, bytes) ← readInt32 bytes
        let (lnotab, bytes, tab) ← unmarshalNode ctx fuel bytes tab
        match decodeLoop ctx.table consts names varnames 0 0 codeBytes with
        | .error e => .error e
        | .ok ops =>
          pure (.code argcount kwonlyargcount nlocals stacksize flags codeBytes
            consts names varnames freevars cellvars filename name
            firstlineno lnotab ops, bytes, tab)
    else .error (.unknownType t)
termination_by fuel _ _ => (fuel, 0)

/-- Decode `count` consecutive marshal values (`unmarshal_collection`). -/
def unmarshalItems (ctx : DisCtx) :
    Nat → Nat → List Nat → List (List Nat) →
    Except DErr (List MValue × List Nat × List (List Nat))
  | _, 0, bytes, tab => .ok ([], bytes, tab)
  | fuel, count + 1, bytes, tab => do
    let (v, bytes, tab) ← unmarshalNode ctx fuel bytes tab
    let (vs, bytes, tab) ← unmarshalItems ctx fuel count bytes tab
    pure (v :: vs, bytes, tab)
termination_by fuel count _ _ => (fuel, count + 1)

end

/-! ### The opcode/revision table (`op.py`)

`op.py` builds, once, a list `_revisions` of interpreter revisions sorted by
ascending magic number; each revision carries its magic, its version string,
its `has_kwonlyargcount` flag and its byte-to-name opcode map.  The table's
contents are scraped static data (not present in the repository's sources);
all lookup logic below is therefore parametric in the revision list. -/

/-- One record of `op.py`'s `_revisions` list (class `_Revision`): the
fields consulted by the lookup functions. -/
structure Revision where
  magic : Nat
  version : String
  kwonly : Bool
  opcodeToName : Nat → Option String

/-- `op._magic_to_revision`: the first revision (in the magic-sorted list)
whose magic is `≥` the requested one, `none` if every magic is below it. -/
def magicToRevision (revs : List Revision) (magic : Nat) : Option Revision :=
  revs.find? (fun rev => magic ≤ rev.magic)

/-- `op.from_bytecode`: look the byte up in the selected revision's table
(`None` when no revision is selected or the byte is absent). -/
def fromBytecode (revs : List Revision) (bytecode : Nat) (magic : Nat) : Option String :=
  match magicToRevision revs magic with
  | some rev => rev.opcodeToName bytecode
  | none => none

/-- `op.python_version_from_magic`. -/
def pythonVersionFromMagic (revs : List Revision) (magic : Nat) : Option String :=
  (magicToRevision revs magic).map (fun rev => rev.version)

/-- `op.has_kwonlyargcount` (`revision and revision.has_kwonlyargcount`). -/
def hasKwonlyargcount (revs : List Revision) (magic : Nat) : Bool :=
  match magicToRevision revs magic with
  | some rev => rev.kwonly
  | none => false

/-- A disassembled module (`disasm.Module`). -/
structure Module where
  magic : Nat
  timestamp : Nat
  python_version : String
  body : MValue

/-- `_Disassembler.disassemble`: read the `u32` magic and timestamp, map the
magic to a version string — rejecting a falsy result (Python's `if not
version`, true for `None` and for the empty string) with the unknown-magic
error — then unmarshal the body.  `hasArg` is the global `op.has_argument`
set. -/
def disassembleModule (revs : List Revision) (hasArg : String → Bool) (fuel : Nat)
    (bytes : List Nat) : Except DErr Module :=
  match readUInt32 bytes with
  | .error e => .error e
  | .ok (magic, bytes) =>
    match readUInt32 bytes with
    | .error e => .error e
    | .ok (timestamp, bytes) =>
      match pythonVersionFromMagic revs magic with
      | none => .error (.unknownMagic magic)
      | some version =>
        if version = "" then .error (.unknownMagic magic)
        else
          match unmarshalNode ⟨⟨fun b => fromBytecode revs b magic, hasArg⟩,
              hasKwonlyargcount revs magic⟩ fuel bytes [] with
          | .error e => .error e
          | .ok (body, _, _) => .ok ⟨magic, timestamp, "Python " ++ version, body⟩

/-! ### The IR node type (`ast.py`, plus `passes.BasicBlock`)

One constructor per `Node` subclass, with the fields of the source.  Fields
that may hold Python `None` (`Opcode.arg`, `If.false`) are `Option`s.
`Const`/`Docstr`/`Comment` carry an opaque literal value.  A `BasicBlock`'s
`next` and `dominator` fields hold block references in the source, which are
cyclic; within one `ComputeBasicBlocks` run the blocks have pairwise
distinct `start` offsets, so the embedding stores the referenced blocks'
start offsets instead. -/

/-- A Python literal stored in a `Const` node. -/
inductive PyVal where
  | none
  | bool (b : Bool)
  | int (n : Int)
  | str (s : String)
deriving Repr, DecidableEq

inductive Node where
  | block (nodes : List Node)
  | tupleN (nodes : List Node)
  | listN (nodes : List Node)
  | printN (nodes : List Node)
  | printNoNewline (nodes : List Node)
  | globalN (nodes : List Node)
  | dictN (nodes : List Node)
  | dictItem (key value : Node)
  | opcode (offset size : Nat) (op : String) (arg : Option Node)
  | const (value : PyVal)
  | docstr (value : PyVal)
  | comment (value : PyVal)
  | ident (name : String)
  | delN (child : Node)
  | passN
  | returnN (child : Node)
  | ifN (cond trueBranch : Node) (falseBranch : Option Node)
  | elseN (body : Node)
  | unary (op : String) (child : Node)
  | binary (op : String) (left right : Node)
  | slice (target lower upper : Node)
  | call (func args kwargs : Node)
  | raiseN (exception : Node)
  | sliceRange (start stop step : Node)
  | assign (left right : Node)
  | attr (left right : Node)
  | basicBlock (start : Nat) (nodes : List Node) (next : List Nat)
      (dominator : Option Nat)
deriving Repr

/-- Concatenate two `(reads, writes)` pairs. -/
def fuAppend (a b : List String × List String) : List String × List String :=
  (a.1 ++ b.1, a.2 ++ b.2)

mutual

/-- `passes.FindUses`: a `DefaultVisitor` that walks the tree and counts, for
every identifier, its reads and its writes.  We return the two multisets of
names as lists; `read_counts.get(x, 0)` of the source is `(fuNode n).1.count
x` and `write_counts.get(x, 0)` is `(fuNode n).2.count x`.  Only the
overridden handlers deviate from the default child walk: a direct `Block`
child of the form `Assign(Ident(x), rhs)` counts a write of `x` and visits
only `rhs`; an `Ident` counts a read.  (`DefaultVisitor` has no
`visit_BasicBlock` handler, so the source would crash on a tree still
containing one; the embedding returns no uses there.) -/
def fuNode : Node → List String × List String
  | .block ns => fuBlockNodes ns
  | .tupleN ns => fuList ns
  | .listN ns => fuList ns
  | .printN ns => fuList ns
  | .printNoNewline ns => fuList ns
  | .globalN ns => fuList ns
  | .dictN ns => fuList ns
  | .dictItem k v => fuAppend (fuNode k) (fuNode v)
  | .opcode _ _ _ arg => fuOpt arg
  | .const _ => ([], [])
  | .docstr _ => ([], [])
  | .comment _ => ([], [])
  | .ident x => ([x], [])
  | .delN c => fuNode c
  | .passN => ([], [])
  | .returnN c => fuNode c
  | .ifN c t f => fuAppend (fuAppend (fuNode c) (fuNode t)) (fuOpt f)
  | .elseN b => fuNode b
  | .unary _ c => fuNode c
  | .binary _ l r => fuAppend (fuNode l) (fuNode r)
  | .slice t l u => fuAppend (fuAppend (fuNode t) (fuNode l)) (fuNode u)
  | .call f a k => fuAppend (fuAppend (fuNode f) (fuNode a)) (fuNode k)
  | .raiseN e => fuNode e
  | .sliceRange a b c => fuAppend (fuAppend (fuNode a) (fuNode b)) (fuNode c)
  | .assign l r => fuAppend (fuNode l) (fuNode r)
  | .attr l r => fuAppend (fuNode l) (fuNode r)
  | .basicBlock _ _ _ _ => ([], [])

/-- Children of a collection node, visited in order. -/
def fuList : List Node → List String × List String
  | [] => ([], [])
  | n :: rest => fuAppend (fuNode n) (fuList rest)

/-- An optional child (`None` fields are skipped by `children()`). -/
def fuOpt : Option Node → List String × List String
  | some n => fuNode n
  | none => ([], [])

/-- The overridden `FindUses.visit_Block` walk over a block's statements. -/
def fuBlockNodes : List Node → List String × List String
  | [] => ([], [])
  | .assign (.ident x) rhs :: rest =>
    fuAppend (fuAppend ([], [x]) (fuNode rhs)) (fuBlockNodes rest)
  | n :: rest => fuAppend (fuNode n) (fuBlockNodes rest)

end

/-- Read count of `x` in `n` (`read_counts.get(x, 0)`). -/
def readCount (n : Node) (x : String) : Nat := (fuNode n).1.count x

/-- Write count of `x` in `n` (`write_counts.get(x, 0)`). -/
def writeCount (n : Node) (x : String) : Nat := (fuNode n).2.count x

/-! ### `passes.ComputeBasicBlocks` -/

def absoluteJumpingOpcodes : List String :=
  ["POP_JUMP_IF_TRUE", "JUMP_IF_FALSE_OR_POP", "POP_JUMP_IF_FALSE",
   "JUMP_IF_TRUE_OR_POP", "JUMP_ABSOLUTE"]

def relativeJumpingOpcodes : List String :=
  ["JUMP_IF_FALSE", "JUMP_IF_TRUE", "JUMP_FORWARD"]

def jumpingOpcodes : List String := absoluteJumpingOpcodes ++ relativeJumpingOpcodes

def exitingOpcodes : List String :=
  ["RETURN_VALUE", "RETURN_NONE", "RAISE_EXCEPTION", "RAISE_VARARGS"]

/-- The `(offset, size, op, arg)` fields of an `Opcode` node; reading them
off any other node is an `AttributeError` in the source, hence `none`. -/
def asOp : Node → Option (Nat × Nat × String × Option Node)
  | .opcode off sz op arg => some (off, sz, op, arg)
  | _ => none

/-- `o.arg.value` as an integer: the argument of a decoded jump opcode is a
`Const` node carrying a raw `int`.  (On any other argument shape the
source's arithmetic on `o.arg.value` crashes or poisons the target set with
a non-integer; no well-formed input produces that.) -/
def argIntValue : Option Node → Option Int
  | some (.const (.int n)) => some n
  | _ => none

/-- `ComputeBasicBlocks.get_targets`: for a jumping opcode, the taken target
(absolute `arg.value`, or `arg.value + offset + size` for relative jumps)
followed by the fall-through offset `offset + size`; otherwise no targets. -/
def getTargets (n : Node) : Option (List Int) := do
  let (off, sz, op, arg) ← asOp n
  if op ∈ jumpingOpcodes then do
    let v ← argIntValue arg
    if op ∈ relativeJumpingOpcodes then
      pure [v + off + sz, ((off : Int) + sz)]
    else
      pure [v, ((off : Int) + sz)]
  else pure []

/-- The jump-target set of `create_basic_blocks` (lines 63-69): the first
opcode's offset (added when the set is still empty), every target of
`get_targets`, and the fall-through offset of every exiting opcode. -/
def jumpTargetsGo (acc : Finset Int) : List Node → Option (Finset Int)
  | [] => some acc
  | n :: rest => do
    let (off, sz, op, _) ← asOp n
    let acc := if acc = ∅ then insert (off : Int) acc else acc
    let ts ← getTargets n
    let acc := acc ∪ ts.toFinset
    let acc := if op ∈ exitingOpcodes then insert ((off : Int) + sz) acc else acc
    jumpTargetsGo acc rest

def jumpTargets (opcodes : List Node) : Option (Finset Int) :=
  jumpTargetsGo ∅ opcodes

/-- The block-construction loop (lines 72-80): start a fresh block at every
opcode whose offset is a jump target, append every opcode to the current
block.  Yields the list of blocks as opcode groups; `none` models the
source's crash when the first opcode does not open a block or when a
non-`Opcode` node appears. -/
def bbSplitGo (tgts : Finset Int) (cur : List Node) :
    List Node → Option (List (List Node))
  | [] => some [cur.reverse]
  | n :: rest => do
    let (off, _, _, _) ← asOp n
    if (off : Int) ∈ tgts then do
      let bs ← bbSplitGo tgts [n] rest
      pure (cur.reverse :: bs)
    else bbSplitGo tgts (n :: cur) rest

def bbSplit (tgts : Finset Int) : List Node → Option (List (List Node))
  | [] => some []
  | n :: rest => do
    let (off, _, _, _) ← asOp n
    if (off : Int) ∈ tgts then bbSplitGo tgts [n] rest else none

/-- A basic block before it is re-wrapped as an AST node: its start offset,
its opcodes, and the start offsets of its successor blocks. -/
structure BBlock where
  start : Nat
  nodes : List Node
  next : List Nat
deriving Repr

/-- `start_to_bb[t]`: the start offset of the block starting at `t`
(`none` models the `KeyError` when no block starts there). -/
def lookupStart (starts : List Nat) (t : Int) : Option Nat :=
  starts.find? (fun s => (s : Int) = t)

/-- Successor wiring for one block (lines 87-91): successors are the blocks
at `get_targets` of the last instruction; a block ending in a non-exiting,
non-jumping instruction falls through to the block starting at
`offset + size` when one exists. -/
def wireBlock (starts : List Nat) (g : List Node) : Option BBlock := do
  let first ← g.head?
  let (off0, _, _, _) ← asOp first
  let last ← g.getLast?
  let (loff, lsz, lop, _) ← asOp last
  let ts ← getTargets last
  let next ← ts.mapM (lookupStart starts)
  let next :=
    if next = [] ∧ lop ∉ exitingOpcodes then
      match lookupStart starts ((loff : Int) + lsz) with
      | some s => [s]
      | none => []
    else next
  pure ⟨off0, g, next⟩

/-- The start offset of a block group: its first opcode's offset (the
`start_to_bb` dictionary key). -/
def headOffset (g : List Node) : Option Nat := do
  let f ← g.head?
  let (o, _, _, _) ← asOp f
  pure o

/-- `ComputeBasicBlocks.create_basic_blocks`. -/
def createBasicBlocks (opcodes : List Node) : Option (List BBlock) := do
  let tgts ← jumpTargets opcodes
  let groups ← bbSplit tgts opcodes
  let starts := groups.filterMap headOffset
  groups.mapM (wireBlock starts)

/-! ### `ComputeBasicBlocks.compute_dominators`

The dominator-set map is a function from block start offsets to `Finset`s
of start offsets.  The source's `while changed` loop iterates over the
`pending` set in Python's (unspecified) set order; the embedding fixes the
block-list order, on which none of the proved properties depend.  The loop
always terminates in the source (the sets only shrink); the embedding takes
fuel and returns `none` when it runs out. -/

/-- The predecessor list (`b.prev`): one entry per occurrence of `t` in a
block's `next` list, in block order. -/
def prevStarts (blocks : List BBlock) (t : Nat) : List Nat :=
  blocks.flatMap (fun b => (b.next.filter (fun x => x = t)).map (fun _ => b.start))

/-- One recomputation `dominators = set(blocks); for prev in b.prev:
dominators &= prev.dominators; dominators |= set([b])`. -/
def domRecompute (univ : Finset Nat) (blocks : List BBlock) (dm : Nat → Finset Nat)
    (b : Nat) : Finset Nat :=
  ((prevStarts blocks b).foldl (fun acc p => acc ∩ dm p) univ) ∪ {b}

/-- One pass of the `for b in pending` loop, updating sequentially and
reporting whether any block's dominator set changed. -/
def domPassRun (univ : Finset Nat) (blocks : List BBlock) :
    List Nat → (Nat → Finset Nat) → ((Nat → Finset Nat) × Bool)
  | [], dm => (dm, false)
  | b :: rest, dm =>
    let ds := domRecompute univ blocks dm b
    let changed : Bool := decide (ds ≠ dm b)
    let dm2 : Nat → Finset Nat := fun x => if x = b then ds else dm x
    let (dmF, ch) := domPassRun univ blocks rest dm2
    (dmF, changed || ch)

/-- The `while changed` loop. -/
def domIterate (univ : Finset Nat) (blocks : List BBlock) (pending : List Nat) :
    Nat → (Nat → Finset Nat) → Option (Nat → Finset Nat)
  | 0, _ => none
  | fuel + 1, dm =>
    let (dm2, ch) := domPassRun univ blocks pending dm
    if ch then domIterate univ blocks pending fuel dm2 else some dm2

/-- The immediate-dominator computation (lines 125-128): the candidates are
the members of `dom(b)` whose dominator set equals `dom(b) - set([b])`; the
immediate dominator is recorded only when there is exactly one. -/
def idomOf (dm : Nat → Finset Nat) (b : Nat) : Option Nat :=
  let target := dm b \ {b}
  let cands := (dm b).filter (fun x => dm x = target)
  match cands.sort (fun x y => x ≤ y) with
  | [x] => some x
  | _ => none

/-- `compute_dominators(blocks, start)`: initialize `dom(start) = ` the
singleton and every other block to all blocks, iterate to the fixed point,
then record immediate dominators.  Returns the final dominator-set map and
the immediate-dominator map. -/
def computeDominators (blocks : List BBlock) (start : Nat) (fuel : Nat) :
    Option ((Nat → Finset Nat) × (Nat → Option Nat)) :=
  let univ := (blocks.map (fun b => b.start)).toFinset
  let pending := (blocks.map (fun b => b.start)).filter (fun s => s ≠ start)
  let dm0 : Nat → Finset Nat := fun b => if b = start then {start} else univ
  (domIterate univ blocks pending fuel dm0).map (fun dm => (dm, idomOf dm))

/-- `ComputeBasicBlocks.run` on the lowered block (`visit_Block`, lines
135-138): split into basic blocks, compute dominators starting from
`node.nodes[0]` (`none` models the `IndexError` on an empty block), and
replace the block's children with the `BasicBlock` nodes. -/
def cbbRun (fuel : Nat) (node : Node) : Option Node :=
  match node with
  | .block ns => do
    let bbs ← createBasicBlocks ns
    let first ← bbs.head?
    let (_, idm) ← computeDominators bbs first.start fuel
    pure (.block (bbs.map (fun b => Node.basicBlock b.start b.nodes b.next (idm b.start))))
  | _ => none

/-- `DecompileControlStructures.run` (`visit_Block`, lines 168-175) at the
call shape the pipeline produces: the block's children are `BasicBlock`
nodes; visiting them (`visit_BasicBlock` = `replace_collection`) leaves
them unchanged, `build_if_statements` is a bodiless stub, and the final
`sum([n.nodes for n in node.nodes], [])` splices the blocks' instruction
lists back together.  On any child without a `nodes` attribute the source
crashes, hence `none`. -/
def dcsRun (node : Node) : Option Node :=
  match node with
  | .block ns => do
    let parts ← ns.mapM (fun n =>
      match n with
      | .basicBlock _ bns _ _ => some bns
      | _ => none)
    pure (.block parts.flatten)
  | _ => none

/-! ### `passes.ReconstructDictLiterals` -/

/-- The constructor of `ReconstructDictLiterals`: the generated variables
with exactly one read and one write in the whole tree. -/
def oneReadOneWrite (gen : Finset String) (root : Node) : Finset String :=
  gen.filter (fun name => readCount root name = 1 ∧ writeCount root name = 1)

/-- The inner `while i + 3 <= len(nodes)` loop (lines 503-522): consume
consecutive `($v = value; $kk = key; $k[$kk] = $v)` triples for the dict
variable `k`, requiring `$v` and `$kk` to be generated variables with one
read and one write; emit one `DictItem(key, value)` per triple and return
the unconsumed tail. -/
def rdlTriples (gen orow : Finset String) (k : String) :
    List Node → List Node × List Node
  | .assign (.ident vn) vval :: .assign (.ident kn) kval ::
      .assign (.binary "[]" (.ident dn) (.ident kn2)) (.ident vn2) :: rest =>
    if vn ∈ gen ∧ kn ∈ gen ∧ dn = k ∧ kn2 = kn ∧ vn2 = vn ∧ kn ∈ orow ∧ vn ∈ orow then
      let pr := rdlTriples gen orow k rest
      (.dictItem kval vval :: pr.1, pr.2)
    else
      ([], .assign (.ident vn) vval :: .assign (.ident kn) kval ::
        .assign (.binary "[]" (.ident dn) (.ident kn2)) (.ident vn2) :: rest)
  | l => ([], l)

theorem rdlTriples_rest_length (gen orow : Finset String) (k : String) :
    ∀ l : List Node, (rdlTriples gen orow k l).2.length ≤ l.length := by
  intro l
  induction l using rdlTriples.induct gen orow k with
  | case1 vn vval kn kval dn kn2 vn2 rest h ih =>
    rw [rdlTriples, if_pos h]
    simp only [List.length_cons]
    omega
  | case2 vn vval kn kval dn kn2 vn2 rest h =>
    rw [rdlTriples, if_neg h]
  | case3 l h =>
    rw [rdlTriples.eq_def]
    split
    · exact absurd rfl (fun hh => h _ _ _ _ _ _ _ _ hh)
    · exact Nat.le_refl _

/-- The outer statement loop of `ReconstructDictLiterals.visit_Block`
(lines 495-523): each statement is kept; after an assignment of a `Dict` to
a generated variable the following store triples are folded into the
dict's items. -/
def rdlLoop (gen orow : Finset String) : List Node → List Node
  | [] => []
  | .assign (.ident k) (.dictN items) :: rest =>
    if k ∈ gen then
      let pr := rdlTriples gen orow k rest
      .assign (.ident k) (.dictN (items ++ pr.1)) :: rdlLoop gen orow pr.2
    else .assign (.ident k) (.dictN items) :: rdlLoop gen orow rest
  | n :: rest => n :: rdlLoop gen orow rest
termination_by l => l.length
decreasing_by
  · exact Nat.lt_succ_of_le (rdlTriples_rest_length gen orow k rest)
  · simp [Nat.lt_succ_of_le]
  · simp [Nat.lt_succ_of_le]

mutual

/-- `ReconstructDictLiterals` as a `CloneVisitor`: every node is cloned
with its children processed first; on a `Block` the statement loop
`rdlLoop` then runs over the cloned children.  (`CloneVisitor` has no
`visit_BasicBlock` handler, so the source would crash on a residual
`BasicBlock`; the embedding clones it unchanged.) -/
def rdlNode (gen orow : Finset String) : Node → Node
  | .block ns => .block (rdlLoop gen orow (rdlList gen orow ns))
  | .tupleN ns => .tupleN (rdlList gen orow ns)
  | .listN ns => .listN (rdlList gen orow ns)
  | .printN ns => .printN (rdlList gen orow ns)
  | .printNoNewline ns => .printNoNewline (rdlList gen orow ns)
  | .globalN ns => .globalN (rdlList gen orow ns)
  | .dictN ns => .dictN (rdlList gen orow ns)
  | .dictItem k v => .dictItem (rdlNode gen orow k) (rdlNode gen orow v)
  | .opcode off sz op arg => .opcode off sz op (rdlOpt gen orow arg)
  | .const v => .const v
  | .docstr v => .docstr v
  | .comment v => .comment v
  | .ident x => .ident x
  | .delN c => .delN (rdlNode gen orow c)
  | .passN => .passN
  | .returnN c => .returnN (rdlNode gen orow c)
  | .ifN c t f => .ifN (rdlNode gen orow c) (rdlNode gen orow t) (rdlOpt gen orow f)
  | .elseN b => .elseN (rdlNode gen orow b)
  | .unary op c => .unary op (rdlNode gen orow c)
  | .binary op l r => .binary op (rdlNode gen orow l) (rdlNode gen orow r)
  | .slice t l u => .slice (rdlNode gen orow t) (rdlNode gen orow l) (rdlNode gen orow u)
  | .call f a kw => .call (rdlNode gen orow f) (rdlNode gen orow a) (rdlNode gen orow kw)
  | .raiseN e => .raiseN (rdlNode gen orow e)
  | .sliceRange a b c => .sliceRange (rdlNode gen orow a) (rdlNode gen orow b) (rdlNode gen orow c)
  | .assign l r => .assign (rdlNode gen orow l) (rdlNode gen orow r)
  | .attr l r => .attr (rdlNode gen orow l) (rdlNode gen orow r)
  | .basicBlock s ns nx d => .basicBlock s ns nx d

def rdlList (gen orow : Finset String) : List Node → List Node
  | [] => []
  | n :: rest => rdlNode gen orow n :: rdlList gen orow rest

def rdlOpt (gen orow : Finset String) : Option Node → Option Node
  | some n => some (rdlNode gen orow n)
  | none => none

end

/-- Run `ReconstructDictLiterals(context, node)` then `node.accept(it)`:
the one-read-one-write set is computed from the whole tree before the
rewrite. -/
def reconstructDictLiterals (gen : Finset String) (root : Node) : Node :=
  rdlNode gen (oneReadOneWrite gen root) root

/-! ### `passes.MakeIdentifiersValid` -/

/-- Decimal rendering of a natural number (Python's `'%d'` formatting):
most-significant digit first, `"0"` for zero. -/
def decRepr (n : Nat) : String :=
  if n = 0 then "0" else ((Nat.digits 10 n).reverse.map Nat.digitChar).asString

theorem digitChar_inj_lt (x y : Nat) (hx : x < 10) (hy : y < 10)
    (h : Nat.digitChar x = Nat.digitChar y) : x = y := by
  have : ∀ a, a < 10 → ∀ b, b < 10 → Nat.digitChar a = Nat.digitChar b → a = b := by decide
  exact this x hx y hy h

theorem map_digitChar_inj :
    ∀ l1 l2 : List Nat, (∀ x ∈ l1, x < 10) → (∀ x ∈ l2, x < 10) →
      l1.map Nat.digitChar = l2.map Nat.digitChar → l1 = l2 := by
  intro l1
  induction l1 with
  | nil => intro l2 _ _ h; cases l2 <;> simp_all
  | cons a t ih =>
    intro l2 h1 h2 h
    cases l2 with
    | nil => simp at h
    | cons b t2 =>
      simp only [List.map_cons, List.cons.injEq] at h
      have ha : a < 10 := h1 a (by simp)
      have hb : b < 10 := h2 b (by simp)
      have hab : a = b := digitChar_inj_lt a b ha hb h.1
      subst hab
      rw [ih t2 (fun x hx => h1 x (by simp [hx])) (fun x hx => h2 x (by simp [hx])) h.2]

theorem asString_data (l : List Char) : (List.asString l).data = l := rfl

theorem decRepr_eq_zero_imp (n : Nat) (h : decRepr n = "0") : n = 0 := by
  by_contra hn
  rw [decRepr, if_neg hn] at h
  have hd : (Nat.digits 10 n).reverse.map Nat.digitChar = ['0'] := by
    have h2 := congrArg String.data h
    rw [asString_data] at h2
    exact h2
  have hlen := congrArg List.length hd
  simp only [List.length_map, List.length_reverse, List.length_cons,
    List.length_nil] at hlen
  rcases List.length_eq_one.mp hlen with ⟨d, hsingle⟩
  have hd10 : d < 10 :=
    Nat.digits_lt_base (by norm_num) (by rw [hsingle]; simp)
  rw [hsingle] at hd
  simp only [List.reverse_singleton, List.map_cons, List.map_nil,
    List.cons.injEq, and_true] at hd
  have hdz : d = 0 := by
    have hzchar : Nat.digitChar 0 = '0' := by decide
    exact digitChar_inj_lt d 0 hd10 (by norm_num) (by rw [hd, hzchar])
  have hof := Nat.ofDigits_digits 10 n
  rw [hsingle, hdz] at hof
  simp [Nat.ofDigits] at hof
  omega

theorem decRepr_injective : Function.Injective decRepr := by
  have h0 : decRepr 0 = "0" := rfl
  intro a b h
  by_cases ha : a = 0 <;> by_cases hb : b = 0
  · omega
  · subst ha
    rw [h0] at h
    exact absurd (decRepr_eq_zero_imp b h.symm) hb
  · subst hb
    rw [h0] at h
    exact absurd (decRepr_eq_zero_imp a h) ha
  · rw [decRepr, decRepr, if_neg ha, if_neg hb] at h
    have hd := congrArg String.data h
    rw [asString_data, asString_data] at hd
    have h1 : ∀ x ∈ (Nat.digits 10 a).reverse, x < 10 := by
      intro x hx
      exact Nat.digits_lt_base (by norm_num) (List.mem_reverse.mp hx)
    have h2 : ∀ x ∈ (Nat.digits 10 b).reverse, x < 10 := by
      intro x hx
      exact Nat.digits_lt_base (by norm_num) (List.mem_reverse.mp hx)
    have hrev := map_digitChar_inj _ _ h1 h2 hd
    have hda : Nat.digits 10 a = Nat.digits 10 b := by
      have h3 := congrArg List.reverse hrev
      simpa using h3
    calc a = Nat.ofDigits 10 (Nat.digits 10 a) := (Nat.ofDigits_digits 10 a).symm
    _ = Nat.ofDigits 10 (Nat.digits 10 b) := by rw [hda]
    _ = b := Nat.ofDigits_digits 10 b

/-- The 26 single-letter names yielded first by `gen_name`. -/
def letterNames : List String :=
  ["a", "b", "c", "d", "e", "f", "g", "h", "i", "j", "k", "l", "m",
   "n", "o", "p", "q", "r", "s", "t", "u", "v", "w", "x", "y", "z"]

/-- The `gen_name` generator of `MakeIdentifiersValid.__init__`: the `i`-th
name yielded is `a` … `z` for `i < 26`, then `var1`, `var2`, …. -/
def genName (i : Nat) : String :=
  match letterNames[i]? with
  | some s => s
  | none => "var" ++ decRepr (i - 25)

theorem genName_length_one_of_lt (i : Nat) (h : i < 26) : (genName i).length = 1 := by
  interval_cases i <;> decide

theorem decRepr_length_pos (n : Nat) : 0 < (decRepr n).length := by
  unfold decRepr
  split
  · decide
  · next h =>
    have : Nat.digits 10 n ≠ [] := Nat.digits_ne_nil_iff_ne_zero.mpr h
    have hlen : 0 < (Nat.digits 10 n).length := List.length_pos.mpr this
    show 0 < (List.asString _).length
    simp only [List.asString]
    show 0 < (String.mk _).data.length
    simpa using hlen

theorem genName_of_ge (i : Nat) (h : 26 ≤ i) : genName i = "var" ++ decRepr (i - 25) := by
  unfold genName
  have : letterNames[i]? = none := by
    apply List.getElem?_eq_none
    simpa [letterNames] using h
  rw [this]

theorem genName_injective : Function.Injective genName := by
  intro i j h
  by_cases hi : i < 26 <;> by_cases hj : j < 26
  · revert h
    interval_cases i <;> interval_cases j <;> simp_all <;> decide
  · exfalso
    have h1 := genName_length_one_of_lt i hi
    rw [h, genName_of_ge j (by omega)] at h1
    rw [String.length_append] at h1
    have := decRepr_length_pos (j - 25)
    have : ("var" : String).length = 3 := rfl
    omega
  · exfalso
    have h1 := genName_length_one_of_lt j hj
    rw [← h, genName_of_ge i (by omega)] at h1
    rw [String.length_append] at h1
    have := decRepr_length_pos (i - 25)
    have : ("var" : String).length = 3 := rfl
    omega
  · rw [genName_of_ge i (by omega), genName_of_ge j (by omega)] at h
    have hd := congrArg String.data h
    simp only [String.data_append] at hd
    have := List.append_cancel_left hd
    have hdec : decRepr (i - 25) = decRepr (j - 25) := by
      apply congrArg String.mk at this
      · simpa [String.mk] using this
    have := decRepr_injective hdec
    omega

/-- There is always a yet-unused generated name within `vs.card + 1` steps
of position `i`: the name supply is injective and the occupied set is
finite. -/
theorem exists_fresh_genName (vs : Finset String) (i : Nat) :
    ∃ j, i ≤ j ∧ j ≤ i + vs.card ∧ genName j ∉ vs := by
  by_contra hcon
  push_neg at hcon
  have hmaps : ∀ k : Fin (vs.card + 1), genName (i + k.val) ∈ vs := by
    intro k
    have hk := k.isLt
    exact hcon (i + k.val) (by omega) (by omega)
  have hinj : Function.Injective (fun k : Fin (vs.card + 1) => genName (i + k.val)) := by
    intro k1 k2 hk
    have := genName_injective hk
    omega
  have hcard : (Finset.univ : Finset (Fin (vs.card + 1))).card ≤ vs.card :=
    Finset.card_le_card_of_injOn (fun k : Fin (vs.card + 1) => genName (i + k.val))
      (fun k _ => hmaps k) (Function.Injective.injOn hinj)
  simp at hcard

/-- The `while True` skip loop of `visit_Ident`, advancing past names that
are already in `Context.vars()`.  The source's loop is unbounded; by
`exists_fresh_genName` it always finds a fresh name within `vs.card + 1`
iterations, so running it with that much fuel is faithful. -/
def freshIdxGo (vs : Finset String) : Nat → Nat → Nat
  | 0, i => i
  | fuel + 1, i => if genName i ∈ vs then freshIdxGo vs fuel (i + 1) else i

/-- The index of the first name at or after `i` that is not in `vs`. -/
def freshIdx (vs : Finset String) (i : Nat) : Nat :=
  freshIdxGo vs (vs.card + 1) i

theorem freshIdxGo_spec (vs : Finset String) :
    ∀ (fuel i : Nat), (∃ j, i ≤ j ∧ j < i + fuel ∧ genName j ∉ vs) →
      genName (freshIdxGo vs fuel i) ∉ vs ∧ i ≤ freshIdxGo vs fuel i ∧
      ∀ k, i ≤ k → k < freshIdxGo vs fuel i → genName k ∈ vs := by
  intro fuel
  induction fuel with
  | zero =>
    rintro i ⟨j, h1, h2, _⟩
    omega
  | succ fuel ih =>
    rintro i ⟨j, h1, h2, h3⟩
    rw [freshIdxGo]
    by_cases hmem : genName i ∈ vs
    · rw [if_pos hmem]
      have hij : i ≠ j := fun he => h3 (he ▸ hmem)
      obtain ⟨hA, hB, hC⟩ := ih (i + 1) ⟨j, by omega, by omega, h3⟩
      refine ⟨hA, by omega, ?_⟩
      intro k hk1 hk2
      rcases Nat.eq_or_lt_of_le hk1 with he | hl
      · rwa [← he]
      · exact hC k (by omega) hk2
    · rw [if_neg hmem]
      exact ⟨hmem, Nat.le_refl i, fun k hk1 hk2 => absurd hk1 (by omega)⟩

/-- The fresh-name choice is the least unused index at or after `i`: its
name is unused, and every skipped name was in use. -/
theorem freshIdx_spec (vs : Finset String) (i : Nat) :
    genName (freshIdx vs i) ∉ vs ∧ i ≤ freshIdx vs i ∧
      ∀ k, i ≤ k → k < freshIdx vs i → genName k ∈ vs := by
  obtain ⟨j, h1, h2, h3⟩ := exists_fresh_genName vs i
  exact freshIdxGo_spec vs (vs.card + 1) i ⟨j, h1, by omega, h3⟩

/-- `^[^\d\W]\w*$` of the source, over ASCII identifiers: a letter or
underscore followed by letters, digits and underscores. -/
def isValidIdent (s : String) : Bool :=
  match s.toList with
  | [] => false
  | c :: rest => (c.isAlpha || c = '_') && rest.all (fun d => d.isAlphanum || d = '_')

/-- The state of one `MakeIdentifiersValid` run: the position of the
`gen_name` iterator, the `name_map` (newest entry first) and the `Context`'s
three variable sets (`visit_Ident` mutates only `generated_vars`). -/
structure MivState where
  nameIdx : Nat
  nameMap : List (String × String)
  globalVars : Finset String
  localVars : Finset String
  generatedVars : Finset String

/-- `Context.vars()`. -/
def MivState.allVars (s : MivState) : Finset String :=
  s.globalVars ∪ s.localVars ∪ s.generatedVars

/-- `MakeIdentifiersValid.visit_Ident`: valid names map to themselves;
an invalid name already mapped reuses its replacement; otherwise the next
generated name not in `Context.vars()` is chosen, recorded in the map and
added to `generated_vars`. -/
def mivIdent (s : MivState) (name : String) : String × MivState :=
  if isValidIdent name then
    (name, { s with nameMap := (name, name) :: s.nameMap })
  else
    match s.nameMap.lookup name with
    | some r => (r, s)
    | none =>
      let j := freshIdx s.allVars s.nameIdx
      let r := genName j
      (r, { s with
              nameIdx := j + 1,
              nameMap := (name, r) :: s.nameMap,
              generatedVars := insert r s.generatedVars })

mutual

/-- `MakeIdentifiersValid` as a `CloneVisitor` threading its state through
the children in declaration order; only `visit_Ident` is overridden.  (As
with the other clone visitors, a residual `BasicBlock` would crash the
source; the embedding clones it unchanged.) -/
def mivNode (s : MivState) : Node → Node × MivState
  | .block ns => let p := mivList s ns; (.block p.1, p.2)
  | .tupleN ns => let p := mivList s ns; (.tupleN p.1, p.2)
  | .listN ns => let p := mivList s ns; (.listN p.1, p.2)
  | .printN ns => let p := mivList s ns; (.printN p.1, p.2)
  | .printNoNewline ns => let p := mivList s ns; (.printNoNewline p.1, p.2)
  | .globalN ns => let p := mivList s ns; (.globalN p.1, p.2)
  | .dictN ns => let p := mivList s ns; (.dictN p.1, p.2)
  | .dictItem k v =>
    let pk := mivNode s k
    let pv := mivNode pk.2 v
    (.dictItem pk.1 pv.1, pv.2)
  | .opcode off sz op arg => let p := mivOpt s arg; (.opcode off sz op p.1, p.2)
  | .const v => (.const v, s)
  | .docstr v => (.docstr v, s)
  | .comment v => (.comment v, s)
  | .ident x => let p := mivIdent s x; (.ident p.1, p.2)
  | .delN c => let p := mivNode s c; (.delN p.1, p.2)
  | .passN => (.passN, s)
  | .returnN c => let p := mivNode s c; (.returnN p.1, p.2)
  | .ifN c t f =>
    let pc := mivNode s c
    let pt := mivNode pc.2 t
    let pf := mivOpt pt.2 f
    (.ifN pc.1 pt.1 pf.1, pf.2)
  | .elseN b => let p := mivNode s b; (.elseN p.1, p.2)
  | .unary op c => let p := mivNode s c; (.unary op p.1, p.2)
  | .binary op l r =>
    let pl := mivNode s l
    let pr := mivNode pl.2 r
    (.binary op pl.1 pr.1, pr.2)
  | .slice t l u =>
    let pt := mivNode s t
    let pl := mivNode pt.2 l
    let pu := mivNode pl.2 u
    (.slice pt.1 pl.1 pu.1, pu.2)
  | .call f a kw =>
    let pf := mivNode s f
    let pa := mivNode pf.2 a
    let pk := mivNode pa.2 kw
    (.call pf.1 pa.1 pk.1, pk.2)
  | .raiseN e => let p := mivNode s e; (.raiseN p.1, p.2)
  | .sliceRange a b c =>
    let pa := mivNode s a
    let pb := mivNode pa.2 b
    let pc := mivNode pb.2 c
    (.sliceRange pa.1 pb.1 pc.1, pc.2)
  | .assign l r =>
    let pl := mivNode s l
    let pr := mivNode pl.2 r
    (.assign pl.1 pr.1, pr.2)
  | .attr l r =>
    let pl := mivNode s l
    let pr := mivNode pl.2 r
    (.attr pl.1 pr.1, pr.2)
  | .basicBlock st ns nx d => (.basicBlock st ns nx d, s)

def mivList (s : MivState) : List Node → List Node × MivState
  | [] => ([], s)
  | n :: rest =>
    let p := mivNode s n
    let pr := mivList p.2 rest
    (p.1 :: pr.1, pr.2)

def mivOpt (s : MivState) : Option Node → Option Node × MivState
  | some n => let p := mivNode s n; (some p.1, p.2)
  | none => (none, s)

end

/-- One full `MakeIdentifiersValid` run over `root` from a fresh pass state
(`name_iter` at the start, empty `name_map`) over a context with the given
variable sets. -/
def makeIdentifiersValid (globalVars localVars generatedVars : Finset String)
    (root : Node) : Node × MivState :=
  mivNode ⟨0, [], globalVars, localVars, generatedVars⟩ root

/-! ## Claim C1 -/

/-- An opcode table with no entries, for concrete decoder runs that never
reach bytecode decoding. -/
def emptyTable : OpTable := ⟨fun _ => none, fun _ => false⟩

def emptyCtx : DisCtx := ⟨emptyTable, false⟩

/-- C1 counterexample: on a value whose first byte is the dict tag `0x7B`
(ASCII left brace), `unmarshal_node` raises the unknown-type error instead
of parsing a dict: the source's dispatch has no branch for `_TYPE_DICT`. -/
theorem c1_counterexample :
    unmarshalNode emptyCtx 1 [123] [] = .error (.unknownType 123) := by
  rw [unmarshalNode]
  rfl

/-- C1 (amended): for every marshalled value whose first byte is the dict
tag `0x7B`, the decoder fails with the unknown-type error carrying that tag
(the dict branch is absent from `unmarshal_node`), for any context, any
following bytes, any string table and any positive fuel. -/
theorem c1_dict_tag_unknown_type (ctx : DisCtx) (fuel : Nat) (rest : List Nat)
    (tab : List (List Nat)) :
    unmarshalNode ctx (fuel + 1) (123 :: rest) tab = .error (.unknownType 123) := by
  rw [unmarshalNode]
  rfl

/-! ## Claim C2 -/

/-- The conjunction proved along the decoding loop: sizes of the emitted
opcodes plus the bytes consumed by `EXTENDED_ARG` account for the whole
input; offsets start at the cursor and chain monotonically; when no
`EXTENDED_ARG` appears, the chain is exact and starts at the cursor. -/
def DecodeInv (t : OpTable) (i : Nat) (bytes : List Nat) (ops : List DisOpcode) : Prop :=
  ((ops.map DisOpcode.size).sum + extArgBytes t bytes = bytes.length) ∧
  (∀ o ∈ ops, i ≤ DisOpcode.offset o) ∧
  List.Chain' (fun a b => DisOpcode.offset a + DisOpcode.size a ≤ DisOpcode.offset b) ops ∧
  (extArgBytes t bytes = 0 →
    ((bytes = [] → ops = []) ∧
     (bytes ≠ [] → ∃ o ops2, ops = o :: ops2 ∧ DisOpcode.offset o = i) ∧
     List.Chain' (fun a b => DisOpcode.offset a + DisOpcode.size a = DisOpcode.offset b) ops))

theorem exceptMap_ok {ε α β : Type} (f : α → β) (a : α) :
    Except.map f (.ok a : Except ε α) = .ok (f a) := rfl

theorem exceptMap_error {ε α β : Type} (f : α → β) (e : ε) :
    Except.map f (.error e : Except ε α) = .error e := rfl

theorem decodeLoop_sizes (t : OpTable) (cns nms vrs : MValue) :
    ∀ (i arg : Nat) (bytes : List Nat) (ops : List DisOpcode),
      decodeLoop t cns nms vrs i arg bytes = .ok ops → DecodeInv t i bytes ops := by
  intro i arg bytes
  induction i, arg, bytes using decodeLoop.induct t cns nms vrs with
  | case1 i arg =>
    intro ops h
    rw [decodeLoop] at h
    cases h
    refine ⟨by simp [extArgBytes], by simp, by simp, ?_⟩
    intro _
    exact ⟨fun _ => rfl, fun hc => absurd rfl hc, by simp⟩
  | case2 i arg b rest hnone =>
    intro ops h
    rw [decodeLoop, hnone] at h
    cases h
  | case3 i arg b lo hi rest argval hsome harg ih =>
    intro ops h
    rw [decodeLoop, hsome] at h
    simp only [harg, if_pos, if_true] at h
    obtain ⟨h1, h2, h3, _⟩ := ih ops h
    have hebytes : extArgBytes t (b :: lo :: hi :: rest) = 3 + extArgBytes t rest := by
      rw [extArgBytes, hsome]
      simp [harg]
    refine ⟨by simp only [hebytes, List.length_cons]; omega,
      fun o ho => by have := h2 o ho; omega, h3, fun hz => by omega⟩
  | case4 i arg b opcode hsome harg lo hi rest argval hext e herr =>
    intro ops h
    rw [decodeLoop, hsome] at h
    simp only [harg, hext, herr, if_pos, if_neg, if_true, if_false] at h
    cases h
  | case5 i arg b opcode hsome harg lo hi rest argval hext argres hres ih =>
    intro ops h
    rw [decodeLoop, hsome] at h
    simp only [harg, hext, hres, if_pos, if_neg, if_true, if_false] at h
    cases hrec : decodeLoop t cns nms vrs (i + 3) 0 rest with
    | error e => rw [hrec, exceptMap_error] at h; cases h
    | ok ops2 =>
      rw [hrec, exceptMap_ok] at h
      cases h
      obtain ⟨h1, h2, h3, h4⟩ := ih ops2 hrec
      have hebytes : extArgBytes t (b :: lo :: hi :: rest) = extArgBytes t rest := by
        rw [extArgBytes, hsome]
        simp [harg, hext]
      refine ⟨?_, ?_, ?_, ?_⟩
      · simp only [List.map_cons, List.sum_cons, hebytes, List.length_cons]
        show 3 + _ + _ = _
        omega
      · intro o ho
        rcases List.mem_cons.mp ho with hh | hh
        · subst hh; exact Nat.le_refl _
        · have := h2 o hh
          show i ≤ DisOpcode.offset o
          omega
      · apply List.chain'_cons'.mpr
        refine ⟨fun o2 ho2 => ?_, h3⟩
        have := h2 o2 (List.mem_of_mem_head? ho2)
        show i + 3 ≤ DisOpcode.offset o2
        omega
      · intro hz
        rw [hebytes] at hz
        obtain ⟨hz1, hz2, hz3⟩ := h4 hz
        refine ⟨?_, ?_, ?_⟩
        · intro hc
          cases hc
        · intro _
          exact ⟨_, _, rfl, rfl⟩

        apply List.chain'_cons'.mpr
        refine ⟨fun o2 ho2 => ?_, hz3⟩
        have hne : ops2 ≠ [] := by
          intro hc
          rw [hc] at ho2
          cases ho2
        have hrest : rest ≠ [] := fun hc => hne (hz1 hc)
        obtain ⟨o3, ops4, heq, hoff⟩ := hz2 hrest
        rw [heq] at ho2
        have ho23 : o2 = o3 := by
          simp only [List.head?_cons, Option.mem_def, Option.some.injEq] at ho2
          exact ho2.symm
        subst ho23
        show i + 3 = DisOpcode.offset o2
        omega
  | case6 i arg b rest opcode hsome harg hshort =>
    intro ops h
    rw [decodeLoop, hsome] at h
    simp only [harg, if_pos, if_true] at h
    rcases rest with _ | ⟨lo, rest1⟩
    · simp at h
    rcases rest1 with _ | ⟨hi, rest2⟩
    · simp at h
    · exact (hshort lo hi rest2 rfl).elim
  | case7 i arg b rest hsome hnarg ih =>
    intro ops h
    rw [decodeLoop, hsome] at h
    simp only [hnarg, if_neg, if_pos, if_true, if_false] at h
    obtain ⟨h1, h2, h3, _⟩ := ih ops h
    have hebytes : extArgBytes t (b :: rest) = 1 + extArgBytes t rest := by
      rw [extArgBytes, hsome]
      simp [hnarg]
    refine ⟨by simp only [hebytes, List.length_cons]; omega,
      fun o ho => by have := h2 o ho; omega, h3, fun hz => by omega⟩
  | case8 i arg b rest opcode hsome hnarg hext ih =>
    intro ops h
    rw [decodeLoop, hsome] at h
    simp only [hnarg, hext, if_neg, if_pos, if_true, if_false] at h
    cases hrec : decodeLoop t cns nms vrs (i + 1) 0 rest with
    | error e => rw [hrec, exceptMap_error] at h; cases h
    | ok ops2 =>
      rw [hrec, exceptMap_ok] at h
      cases h
      obtain ⟨h1, h2, h3, h4⟩ := ih ops2 hrec
      have hebytes : extArgBytes t (b :: rest) = extArgBytes t rest := by
        rw [extArgBytes, hsome]
        simp [hnarg, hext]
      refine ⟨?_, ?_, ?_, ?_⟩
      · simp only [List.map_cons, List.sum_cons, hebytes, List.length_cons]
        show 1 + _ + _ = _
        omega
      · intro o ho
        rcases List.mem_cons.mp ho with hh | hh
        · subst hh; exact Nat.le_refl _
        · have := h2 o hh
          show i ≤ DisOpcode.offset o
          omega
      · apply List.chain'_cons'.mpr
        refine ⟨fun o2 ho2 => ?_, h3⟩
        have := h2 o2 (List.mem_of_mem_head? ho2)
        show i + 1 ≤ DisOpcode.offset o2
        omega
      · intro hz
        rw [hebytes] at hz
        obtain ⟨hz1, hz2, hz3⟩ := h4 hz
        refine ⟨?_, ?_, ?_⟩
        · intro hc
          cases hc
        · intro _
          exact ⟨_, _, rfl, rfl⟩

        apply List.chain'_cons'.mpr
        refine ⟨fun o2 ho2 => ?_, hz3⟩
        have hne : ops2 ≠ [] := by
          intro hc
          rw [hc] at ho2
          cases ho2
        have hrest : rest ≠ [] := fun hc => hne (hz1 hc)
        obtain ⟨o3, ops4, heq, hoff⟩ := hz2 hrest
        rw [heq] at ho2
        have ho23 : o2 = o3 := by
          simp only [List.head?_cons, Option.mem_def, Option.some.injEq] at ho2
          exact ho2.symm
        subst ho23
        show i + 1 = DisOpcode.offset o2
        omega

/-- C2 (amended): whenever the decode loop succeeds, the sum of the emitted
opcodes' sizes plus the bytes consumed by `EXTENDED_ARG` instructions (which
emit no opcode) equals the bytecode length, and consecutive opcodes satisfy
`offset + size ≤ next offset`.  When the bytecode contains no consumed
`EXTENDED_ARG`, the claim's exact equalities hold: the sizes sum to the full
length and `offset + size = next offset` throughout. -/
theorem c2_sizes_and_offsets (t : OpTable) (cns nms vrs : MValue) (code : List Nat)
    (ops : List DisOpcode) (h : decodeLoop t cns nms vrs 0 0 code = .ok ops) :
    ((ops.map DisOpcode.size).sum + extArgBytes t code = code.length) ∧
    List.Chain' (fun a b => DisOpcode.offset a + DisOpcode.size a ≤ DisOpcode.offset b) ops ∧
    (extArgBytes t code = 0 →
      (ops.map DisOpcode.size).sum = code.length ∧
      List.Chain' (fun a b => DisOpcode.offset a + DisOpcode.size a = DisOpcode.offset b) ops) := by
  obtain ⟨h1, _, h3, h4⟩ := decodeLoop_sizes t cns nms vrs 0 0 code ops h
  exact ⟨h1, h3, fun hz => ⟨by omega, (h4 hz).2.2⟩⟩

/-- A two-opcode table (`EXTENDED_ARG` and `JUMP_ABSOLUTE`, both with
arguments) for concrete decoding runs. -/
def exTable : OpTable :=
  ⟨fun b => if b = 143 then some "EXTENDED_ARG"
    else if b = 113 then some "JUMP_ABSOLUTE" else none,
   fun s => s = "EXTENDED_ARG" || s = "JUMP_ABSOLUTE"⟩

theorem exTable_decode :
    decodeLoop exTable .pyNone .pyNone .pyNone 0 0 [143, 0, 1, 113, 5, 0] =
      .ok [(3, 3, "JUMP_ABSOLUTE", some (.inr 16777221))] := by
  rw [decodeLoop]
  show decodeLoop exTable .pyNone .pyNone .pyNone 3 16777216 [113, 5, 0] = _
  rw [decodeLoop]
  show Except.map (fun ops => (3, 3, "JUMP_ABSOLUTE", some (Sum.inr 16777221)) :: ops)
      (decodeLoop exTable .pyNone .pyNone .pyNone 6 0 []) = _
  rw [decodeLoop]
  rfl

/-- C2 counterexample: six bytes of bytecode holding an `EXTENDED_ARG`
prefix and a `JUMP_ABSOLUTE` decode to a single opcode of size 3, so the
sizes sum to 3, not to the bytecode length 6 (and the three `EXTENDED_ARG`
bytes belong to no opcode). -/
theorem c2_counterexample :
    decodeLoop exTable .pyNone .pyNone .pyNone 0 0 [143, 0, 1, 113, 5, 0] =
      .ok [(3, 3, "JUMP_ABSOLUTE", some (.inr 16777221))] ∧
    (([((3 : Nat), (3 : Nat), "JUMP_ABSOLUTE",
        some (Sum.inr 16777221 : MValue ⊕ Nat))] : List DisOpcode).map
      DisOpcode.size).sum = 3 ∧
    ([143, 0, 1, 113, 5, 0] : List Nat).length = 6 ∧ (3 : Nat) ≠ 6 :=
  ⟨exTable_decode, rfl, rfl, by decide⟩

theorem c2_sizes_and_offsets_witness :
    ((([((3 : Nat), (3 : Nat), "JUMP_ABSOLUTE",
          some (Sum.inr 16777221 : MValue ⊕ Nat))] : List DisOpcode).map
        DisOpcode.size).sum + extArgBytes exTable [143, 0, 1, 113, 5, 0] =
      ([143, 0, 1, 113, 5, 0] : List Nat).length) ∧
    List.Chain' (fun a b => DisOpcode.offset a + DisOpcode.size a ≤ DisOpcode.offset b)
      [((3 : Nat), (3 : Nat), "JUMP_ABSOLUTE", some (Sum.inr 16777221 : MValue ⊕ Nat))] ∧
    (extArgBytes exTable [143, 0, 1, 113, 5, 0] = 0 →
      (([((3 : Nat), (3 : Nat), "JUMP_ABSOLUTE",
          some (Sum.inr 16777221 : MValue ⊕ Nat))] : List DisOpcode).map
        DisOpcode.size).sum = ([143, 0, 1, 113, 5, 0] : List Nat).length ∧
      List.Chain' (fun a b => DisOpcode.offset a + DisOpcode.size a = DisOpcode.offset b)
        [((3 : Nat), (3 : Nat), "JUMP_ABSOLUTE", some (Sum.inr 16777221 : MValue ⊕ Nat))]) :=
  c2_sizes_and_offsets exTable .pyNone .pyNone .pyNone [143, 0, 1, 113, 5, 0] _ exTable_decode

/-! ## Claim C3 -/

theorem option_some_bind {α β : Type} (a : α) (f : α → Option β) :
    (some a >>= f) = f a := rfl

theorem getTargets_jumping (n : Node) (lo ls : Nat) (lop : String) (la : Option Node)
    (ha : asOp n = some (lo, ls, lop, la)) (hj : lop ∈ jumpingOpcodes)
    (tv : Int) (hv : argIntValue la = some tv) :
    getTargets n =
      some [(if lop ∈ relativeJumpingOpcodes then tv + lo + ls else tv),
        ((lo : Int) + ls)] := by
  rw [getTargets, ha, option_some_bind]
  show (if lop ∈ jumpingOpcodes then _ else _) = _
  rw [if_pos hj, hv, option_some_bind]
  by_cases hr : lop ∈ relativeJumpingOpcodes
  · rw [if_pos hr, if_pos hr]
    rfl
  · rw [if_neg hr, if_neg hr]
    rfl

theorem getTargets_jumping_none (n : Node) (lo ls : Nat) (lop : String) (la : Option Node)
    (ha : asOp n = some (lo, ls, lop, la)) (hj : lop ∈ jumpingOpcodes)
    (hv : argIntValue la = none) :
    getTargets n = none := by
  rw [getTargets, ha, option_some_bind]
  show (if lop ∈ jumpingOpcodes then _ else _) = _
  rw [if_pos hj, hv]
  rfl

theorem getTargets_not_jumping (n : Node) (lo ls : Nat) (lop : String) (la : Option Node)
    (ha : asOp n = some (lo, ls, lop, la)) (hnj : lop ∉ jumpingOpcodes) :
    getTargets n = some [] := by
  rw [getTargets, ha, option_some_bind]
  show (if lop ∈ jumpingOpcodes then _ else _) = _
  rw [if_neg hnj]
  rfl

theorem lookupStart_some (starts : List Nat) (t : Int) (s : Nat)
    (h : lookupStart starts t = some s) : (s : Int) = t ∧ s ∈ starts := by
  have h1 := List.find?_some h
  have h2 := List.mem_of_find?_eq_some h
  simp only [decide_eq_true_eq] at h1
  exact ⟨h1, h2⟩

theorem lookupStart_none_iff (starts : List Nat) (t : Int) :
    lookupStart starts t = none ↔ ∀ s ∈ starts, (s : Int) ≠ t := by
  rw [lookupStart, List.find?_eq_none]
  constructor
  · intro h s hs
    simpa using h s hs
  · intro h s hs
    simpa using h s hs

theorem wireBlock_inv (starts : List Nat) (g : List Node) (bb : BBlock)
    (hw : wireBlock starts g = some bb) :
    ∃ first o0 last lo ls lop la ts next0,
      g.head? = some first ∧ asOp first = some o0 ∧
      g.getLast? = some last ∧ asOp last = some (lo, ls, lop, la) ∧
      getTargets last = some ts ∧ ts.mapM (lookupStart starts) = some next0 ∧
      bb = ⟨o0.1, g,
        if next0 = [] ∧ lop ∉ exitingOpcodes then
          (match lookupStart starts ((lo : Int) + ls) with
           | some s => [s]
           | none => [])
        else next0⟩ := by
  simp only [wireBlock, Option.bind_eq_bind, Option.bind_eq_some, Option.pure_def,
    Option.some.injEq] at hw
  obtain ⟨first, hfirst, o0, ho0, last, hlast, oL, hoL, ts, hts, next0, hnext0, hbb⟩ := hw
  obtain ⟨lo, ls, lop, la⟩ := oL
  exact ⟨first, o0, last, lo, ls, lop, la, ts, next0, hfirst, ho0, hlast, hoL, hts,
    hnext0, hbb.symm⟩

theorem mapM_mem_option {α β : Type} (f : α → Option β) :
    ∀ (l : List α) (l2 : List β), l.mapM f = some l2 → ∀ b ∈ l2, ∃ a ∈ l, f a = some b := by
  intro l
  induction l with
  | nil =>
    intro l2 h b hb
    simp only [List.mapM_nil, Option.pure_def, Option.some.injEq] at h
    subst h
    cases hb
  | cons a rest ih =>
    intro l2 h b hb
    rw [List.mapM_cons] at h
    simp only [Option.bind_eq_bind, Option.bind_eq_some, Option.pure_def,
      Option.some.injEq] at h
    obtain ⟨b1, hb1, l3, hl3, heq⟩ := h
    subst heq
    rcases List.mem_cons.mp hb with hh | hh
    · exact ⟨a, by simp, by rw [hb1, hh]⟩
    · obtain ⟨a2, ha2, hfa2⟩ := ih l3 hl3 b hh
      exact ⟨a2, by simp [ha2], hfa2⟩

theorem mapM_wire_starts (starts : List Nat) :
    ∀ (groups : List (List Node)) (bbs : List BBlock),
      groups.mapM (wireBlock starts) = some bbs →
      bbs.map (fun b => b.start) = groups.filterMap headOffset := by
  intro groups
  induction groups with
  | nil =>
    intro bbs h
    simp only [List.mapM_nil, Option.pure_def, Option.some.injEq] at h
    subst h
    rfl
  | cons g rest ih =>
    intro bbs h
    rw [List.mapM_cons] at h
    simp only [Option.bind_eq_bind, Option.bind_eq_some, Option.pure_def,
      Option.some.injEq] at h
    obtain ⟨bb, hbb, bbs2, hbbs2, heq⟩ := h
    subst heq
    obtain ⟨first, o0, last, lo, ls, lop, la, ts, next0, hfirst, ho0, hlast, hoL,
      hts, hnext0, hbbEq⟩ := wireBlock_inv starts g bb hbb
    have hho : headOffset g = some bb.start := by
      obtain ⟨a1, a2, a3, a4⟩ := o0
      rw [headOffset, hfirst, option_some_bind, ho0, option_some_bind, hbbEq]
      rfl
    rw [List.filterMap_cons, hho]
    simp only [List.map_cons]
    rw [ih bbs2 hbbs2]

theorem mapM_two (f : Int → Option Nat) (t1 t2 : Int) (l2 : List Nat)
    (h : ([t1, t2] : List Int).mapM f = some l2) :
    ∃ s1 s2, l2 = [s1, s2] ∧ f t1 = some s1 ∧ f t2 = some s2 := by
  simp only [List.mapM_cons, List.mapM_nil, Option.bind_eq_bind, Option.bind_eq_some,
    Option.pure_def, Option.some.injEq] at h
  obtain ⟨s1, hs1, s2, ⟨s2v, hs2v, a, ha, ha2⟩, heq⟩ := h
  subst ha
  exact ⟨s1, s2v, by rw [← heq, ← ha2], hs1, hs2v⟩

theorem exiting_not_jumping : ∀ s ∈ exitingOpcodes, s ∉ jumpingOpcodes := by decide

/-- C3 (amended): every basic block built by `create_basic_blocks` has 0, 1
or 2 successors, but their number is governed by the *jumping/exiting*
split of the final instruction, not by conditionality: a block ending in
any jumping opcode — conditional or the unconditional `JUMP_ABSOLUTE` /
`JUMP_FORWARD` — gets exactly two successors, the taken-target block first
and the fall-through block second; a block ending in an exiting opcode gets
none; any other block gets the fall-through block when one starts at
`offset + size` and none otherwise. -/
theorem c3_successors (ns : List Node) (bbs : List BBlock)
    (h : createBasicBlocks ns = some bbs) :
    ∀ bb ∈ bbs, ∃ (hne : bb.nodes ≠ []) (lo ls : Nat) (lop : String) (la : Option Node),
      asOp (bb.nodes.getLast hne) = some (lo, ls, lop, la) ∧
      (bb.next.length = 0 ∨ bb.next.length = 1 ∨ bb.next.length = 2) ∧
      (lop ∈ jumpingOpcodes →
        ∃ tv s1 s2, argIntValue la = some tv ∧ bb.next = [s1, s2] ∧
          ((s1 : Int) = if lop ∈ relativeJumpingOpcodes then tv + lo + ls else tv) ∧
          ((s2 : Int) = (lo : Int) + ls)) ∧
      (lop ∈ exitingOpcodes → bb.next = []) ∧
      (lop ∉ jumpingOpcodes → lop ∉ exitingOpcodes →
        ((bb.next = [] ∧ ∀ bb2 ∈ bbs, (bb2.start : Int) ≠ (lo : Int) + ls) ∨
         (∃ s, bb.next = [s] ∧ (s : Int) = (lo : Int) + ls))) := by
  intro bb hbb
  simp only [createBasicBlocks, Option.bind_eq_bind, Option.bind_eq_some] at h
  obtain ⟨tgts, htg, groups, hsp, hmap⟩ := h
  have hstarts := mapM_wire_starts (groups.filterMap headOffset) groups bbs hmap
  obtain ⟨g, hg, hwire⟩ :=
    mapM_mem_option (wireBlock (groups.filterMap headOffset)) groups bbs hmap bb hbb
  obtain ⟨first, o0, last, lo, ls, lop, la, ts, next0, hfirst, ho0, hlast, hoL,
    hts, hnext0, hbbEq⟩ := wireBlock_inv _ g bb hwire
  have hne : bb.nodes ≠ [] := by
    rw [hbbEq]
    intro hc
    simp only at hc
    rw [hc] at hfirst
    cases hfirst
  have hlastEq : bb.nodes.getLast hne = last := by
    have h1 : bb.nodes = g := by rw [hbbEq]
    have h2 : bb.nodes.getLast? = some last := by rw [h1]; exact hlast
    rw [List.getLast?_eq_getLast _ hne] at h2
    exact (Option.some.injEq _ _).mp h2.symm |>.symm
  have hnexteq : bb.next =
      (if next0 = [] ∧ lop ∉ exitingOpcodes then
        (match lookupStart (groups.filterMap headOffset) ((lo : Int) + ls) with
         | some s => [s]
         | none => [])
      else next0) := by
    rw [hbbEq]
  have hjump : lop ∈ jumpingOpcodes →
      ∃ tv s1 s2, argIntValue la = some tv ∧ bb.next = [s1, s2] ∧
        ((s1 : Int) = if lop ∈ relativeJumpingOpcodes then tv + lo + ls else tv) ∧
        ((s2 : Int) = (lo : Int) + ls) := by
    intro hj
    cases hv : argIntValue la with
    | none =>
      rw [getTargets_jumping_none last lo ls lop la hoL hj hv] at hts
      cases hts
    | some tv =>
      rw [getTargets_jumping last lo ls lop la hoL hj tv hv] at hts
      cases hts
      obtain ⟨s1, s2, hl2, hf1, hf2⟩ := mapM_two _ _ _ next0 hnext0
      subst hl2
      have h1 := lookupStart_some _ _ _ hf1
      have h2 := lookupStart_some _ _ _ hf2
      refine ⟨tv, s1, s2, rfl, ?_, h1.1, h2.1⟩
      rw [hnexteq, if_neg (by simp)]
  have hexit : lop ∈ exitingOpcodes → bb.next = [] := by
    intro hx
    have hnj : lop ∉ jumpingOpcodes := exiting_not_jumping lop hx
    rw [getTargets_not_jumping last lo ls lop la hoL hnj] at hts
    cases hts
    simp only [List.mapM_nil, Option.pure_def, Option.some.injEq] at hnext0
    subst hnext0
    rw [hnexteq, if_neg (by simp [hx])]
  have hother : lop ∉ jumpingOpcodes → lop ∉ exitingOpcodes →
      ((bb.next = [] ∧ ∀ bb2 ∈ bbs, (bb2.start : Int) ≠ (lo : Int) + ls) ∨
       (∃ s, bb.next = [s] ∧ (s : Int) = (lo : Int) + ls)) := by
    intro hnj hnx
    rw [getTargets_not_jumping last lo ls lop la hoL hnj] at hts
    cases hts
    simp only [List.mapM_nil, Option.pure_def, Option.some.injEq] at hnext0
    subst hnext0
    rw [hnexteq, if_pos ⟨rfl, hnx⟩]
    cases hl : lookupStart (groups.filterMap headOffset) ((lo : Int) + ls) with
    | some s =>
      exact Or.inr ⟨s, rfl, (lookupStart_some _ _ _ hl).1⟩
    | none =>
      refine Or.inl ⟨rfl, ?_⟩
      intro bb2 hbb2
      have hmem : bb2.start ∈ groups.filterMap headOffset := by
        rw [← hstarts]
        exact List.mem_map_of_mem _ hbb2
      exact (lookupStart_none_iff _ _).mp hl bb2.start hmem
  refine ⟨hne, lo, ls, lop, la, by rw [hlastEq]; exact hoL, ?_, hjump, hexit, hother⟩
  by_cases hj : lop ∈ jumpingOpcodes
  · obtain ⟨_, _, _, _, hnx, _⟩ := hjump hj
    rw [hnx]
    simp
  · by_cases hx : lop ∈ exitingOpcodes
    · rw [hexit hx]
      simp
    · rcases hother hj hx with ⟨hnil, _⟩ | ⟨s, hs, _⟩
      · rw [hnil]; simp
      · rw [hs]; simp

def c3ex : List Node :=
  [.opcode 0 3 "JUMP_ABSOLUTE" (some (.const (.int 4))),
   .opcode 3 1 "RETURN_VALUE" none,
   .opcode 4 1 "RETURN_VALUE" none]

def c3bb0 : BBlock := ⟨0, [.opcode 0 3 "JUMP_ABSOLUTE" (some (.const (.int 4)))], [4, 3]⟩

def c3bbs : List BBlock :=
  [c3bb0, ⟨3, [.opcode 3 1 "RETURN_VALUE" none], []⟩,
   ⟨4, [.opcode 4 1 "RETURN_VALUE" none], []⟩]

/-- C3 counterexample: a block ending in the *unconditional* `JUMP_ABSOLUTE`
still receives two successors (the taken target 4, then the fall-through 3),
where the claim demands exactly one successor for such a block. -/
theorem c3_counterexample :
    createBasicBlocks c3ex = some c3bbs ∧
    "JUMP_ABSOLUTE" ∈ absoluteJumpingOpcodes ∧
    "JUMP_ABSOLUTE" ∉ exitingOpcodes ∧
    c3bb0 ∈ c3bbs ∧ c3bb0.next = [4, 3] ∧ c3bb0.next.length ≠ 1 :=
  ⟨rfl, by decide, by decide, by simp [c3bbs], rfl, by decide⟩

/-- `c3_successors` applied to the first block of a concrete run. -/
theorem c3_successors_witness :
    ∃ (hne : c3bb0.nodes ≠ []) (lo ls : Nat) (lop : String) (la : Option Node),
      asOp (c3bb0.nodes.getLast hne) = some (lo, ls, lop, la) ∧
      (c3bb0.next.length = 0 ∨ c3bb0.next.length = 1 ∨ c3bb0.next.length = 2) ∧
      (lop ∈ jumpingOpcodes →
        ∃ tv s1 s2, argIntValue la = some tv ∧ c3bb0.next = [s1, s2] ∧
          ((s1 : Int) = if lop ∈ relativeJumpingOpcodes then tv + lo + ls else tv) ∧
          ((s2 : Int) = (lo : Int) + ls)) ∧
      (lop ∈ exitingOpcodes → c3bb0.next = []) ∧
      (lop ∉ jumpingOpcodes → lop ∉ exitingOpcodes →
        ((c3bb0.next = [] ∧ ∀ bb2 ∈ c3bbs, (bb2.start : Int) ≠ (lo : Int) + ls) ∨
         (∃ s, c3bb0.next = [s] ∧ (s : Int) = (lo : Int) + ls))) :=
  c3_successors c3ex c3bbs rfl c3bb0 (by simp [c3bbs])

/-! ## Claim C9 -/

theorem bbSplitGo_flatten (tgts : Finset Int) :
    ∀ (l cur : List Node) (gs : List (List Node)),
      bbSplitGo tgts cur l = some gs → gs.flatten = cur.reverse ++ l := by
  intro l
  induction l with
  | nil =>
    intro cur gs h
    simp only [bbSplitGo, Option.some.injEq] at h
    subst h
    simp
  | cons n rest ih =>
    intro cur gs h
    simp only [bbSplitGo, Option.bind_eq_bind, Option.bind_eq_some] at h
    obtain ⟨o, ho, h2⟩ := h
    obtain ⟨off, a2, a3, a4⟩ := o
    by_cases hoff : (off : Int) ∈ tgts
    · rw [if_pos hoff] at h2
      simp only [Option.bind_eq_bind, Option.bind_eq_some, Option.pure_def,
        Option.some.injEq] at h2
      obtain ⟨bs, hbs, heq⟩ := h2
      subst heq
      have hbsF := ih [n] bs hbs
      simp only [List.flatten_cons, hbsF]
      simp
    · rw [if_neg hoff] at h2
      have := ih (n :: cur) gs h2
      simpa using this

theorem bbSplit_flatten (tgts : Finset Int) (l : List Node) (gs : List (List Node))
    (h : bbSplit tgts l = some gs) : gs.flatten = l := by
  cases l with
  | nil =>
    simp only [bbSplit, Option.some.injEq] at h
    subst h
    rfl
  | cons n rest =>
    simp only [bbSplit, Option.bind_eq_bind, Option.bind_eq_some] at h
    obtain ⟨o, ho, h2⟩ := h
    obtain ⟨off, a2, a3, a4⟩ := o
    by_cases hoff : (off : Int) ∈ tgts
    · rw [if_pos hoff] at h2
      simpa using bbSplitGo_flatten tgts rest [n] gs h2
    · rw [if_neg hoff] at h2
      cases h2

theorem mapM_wire_nodes (starts : List Nat) :
    ∀ (groups : List (List Node)) (bbs : List BBlock),
      groups.mapM (wireBlock starts) = some bbs →
      bbs.map (fun b => b.nodes) = groups := by
  intro groups
  induction groups with
  | nil =>
    intro bbs h
    simp only [List.mapM_nil, Option.pure_def, Option.some.injEq] at h
    subst h
    rfl
  | cons g rest ih =>
    intro bbs h
    rw [List.mapM_cons] at h
    simp only [Option.bind_eq_bind, Option.bind_eq_some, Option.pure_def,
      Option.some.injEq] at h
    obtain ⟨bb, hbb, bbs2, hbbs2, heq⟩ := h
    subst heq
    obtain ⟨first, o0, last, lo, ls, lop, la, ts, next0, hfirst, ho0, hlast, hoL,
      hts, hnext0, hbbEq⟩ := wireBlock_inv starts g bb hbb
    have hnodes : bb.nodes = g := by rw [hbbEq]
    simp only [List.map_cons, hnodes]
    rw [ih bbs2 hbbs2]

theorem mapM_extract_basicBlocks (idm : Nat → Option Nat) :
    ∀ (l : List BBlock),
      (l.map (fun b => Node.basicBlock b.start b.nodes b.next (idm b.start))).mapM
        (fun n =>
          match n with
          | .basicBlock _ bns _ _ => some bns
          | _ => none) =
      some (l.map (fun b => b.nodes)) := by
  intro l
  induction l with
  | nil => rfl
  | cons b rest ih =>
    rw [List.map_cons, List.mapM_cons]
    show ((fun n =>
        match n with
        | Node.basicBlock _ bns _ _ => some bns
        | _ => none) (Node.basicBlock b.start b.nodes b.next (idm b.start)) >>= _) = _
    rw [option_some_bind]
    simp only [ih]
    rfl

/-- C9 (amended): whenever `ComputeBasicBlocks` succeeds on a block of
opcodes, running `DecompileControlStructures` on its output restores the
original block exactly — splitting into `BasicBlock` nodes and flattening
them back is the identity on the instruction sequence and removes every
`BasicBlock` node.  (The success hypothesis is necessary: the pass crashes
on the vacuously well-formed empty sequence, see the counterexample.) -/
theorem c9_roundtrip (fuel : Nat) (ns : List Node) (out : Node)
    (h : cbbRun fuel (.block ns) = some out) :
    dcsRun out = some (.block ns) := by
  simp only [cbbRun, Option.bind_eq_bind, Option.bind_eq_some, Option.pure_def,
    Option.some.injEq] at h
  obtain ⟨bbs, hbbs, first, hfirst, p, hdom, hout⟩ := h
  obtain ⟨dmv, idm⟩ := p
  subst hout
  simp only [createBasicBlocks, Option.bind_eq_bind, Option.bind_eq_some] at hbbs
  obtain ⟨tgts, htg, groups, hsp, hmap⟩ := hbbs
  show (do
    let parts ← (bbs.map (fun b =>
        Node.basicBlock b.start b.nodes b.next (idm b.start))).mapM
      (fun n =>
        match n with
        | .basicBlock _ bns _ _ => some bns
        | _ => none)
    pure (Node.block parts.flatten)) = some (.block ns)
  rw [mapM_extract_basicBlocks idm bbs, option_some_bind]
  rw [mapM_wire_nodes _ groups bbs hmap, bbSplit_flatten tgts ns groups hsp]
  rfl

/-- C9 counterexample: the empty instruction sequence is vacuously
well-formed and `create_basic_blocks` succeeds on it with zero blocks, but
the pass itself crashes (`node.nodes[0]` on no blocks), so the claimed
round trip does not even start. -/
theorem c9_counterexample :
    createBasicBlocks ([] : List Node) = some [] ∧
    cbbRun 5 (.block ([] : List Node)) = none :=
  ⟨rfl, rfl⟩

theorem idomOf_filter_empty (dm : Nat → Finset Nat) (b : Nat)
    (h : (dm b).filter (fun x => dm x = dm b \ {b}) = ∅) : idomOf dm b = none := by
  rw [idomOf]
  simp only [h, Finset.sort_empty]

theorem idomOf_filter_singleton (dm : Nat → Finset Nat) (b d : Nat)
    (h : (dm b).filter (fun x => dm x = dm b \ {b}) = {d}) : idomOf dm b = some d := by
  rw [idomOf]
  simp only [h, Finset.sort_singleton]

/-- `c9_roundtrip` applied to a concrete one-instruction block. -/
theorem c9_roundtrip_witness :
    cbbRun 1 (.block [.opcode 0 1 "RETURN_VALUE" none]) =
      some (.block [.basicBlock 0 [.opcode 0 1 "RETURN_VALUE" none] [] none]) ∧
    dcsRun (.block [.basicBlock 0 [.opcode 0 1 "RETURN_VALUE" none] [] none]) =
      some (.block [.opcode 0 1 "RETURN_VALUE" none]) := by
  have hid : idomOf (fun b => if b = 0 then ({0} : Finset Nat) else {0}) 0 = none := by
    refine idomOf_filter_empty _ 0 ?_
    decide
  have h1 : cbbRun 1 (.block [.opcode 0 1 "RETURN_VALUE" none]) =
      some (.block [.basicBlock 0 [.opcode 0 1 "RETURN_VALUE" none] [] none]) := by
    show some (Node.block [Node.basicBlock 0 [Node.opcode 0 1 "RETURN_VALUE" none] []
      (idomOf (fun b => if b = 0 then ({0} : Finset Nat) else {0}) 0)]) = _
    rw [hid]
  exact ⟨h1, c9_roundtrip 1 [.opcode 0 1 "RETURN_VALUE" none]
    (.block [.basicBlock 0 [.opcode 0 1 "RETURN_VALUE" none] [] none]) h1⟩

/-! ## Claim C8 -/

def c8gen : Finset String := {"$0", "$1", "$2"}

def c8rest : List Node :=
  [.assign (.ident "$0") (.const (.int 1)),
   .assign (.ident "$1") (.const (.int 2)),
   .assign (.binary "[]" (.ident "$2") (.ident "$1")) (.ident "$0"),
   .assign (.ident "z") (.ident "$2"),
   .assign (.ident "w") (.ident "$2")]

def c8root : Node := .block (.assign (.ident "$2") (.dictN []) :: c8rest)

/-- C8 (amended): the one-read-one-write set is exactly the generated
variables with one read and one write in the whole tree; the statement loop
folds the consecutive store triples after `Assign(Ident($k), Dict(...))`
whenever `$k` is a *generated* variable — `$k` itself is never required to
have one read and one write, only the per-triple value and key temporaries
are — consuming each matched triple into a `DictItem`; a dict assignment
whose variable is not generated, and any triple failing the pattern or the
temporaries' one-read-one-write test, is left unchanged. -/
theorem c8_dict_folding (gen : Finset String) (root : Node) :
    (∀ name, name ∈ oneReadOneWrite gen root ↔
      name ∈ gen ∧ readCount root name = 1 ∧ writeCount root name = 1) ∧
    (∀ (k : String) (l its tail : List Node),
      rdlTriples gen (oneReadOneWrite gen root) k l = (its, tail) →
      (its = [] ∧ tail = l) ∨
      (∃ vn vval kn kval rest its2,
        l = .assign (.ident vn) vval :: .assign (.ident kn) kval ::
            .assign (.binary "[]" (.ident k) (.ident kn)) (.ident vn) :: rest ∧
        vn ∈ gen ∧ kn ∈ gen ∧
        kn ∈ oneReadOneWrite gen root ∧ vn ∈ oneReadOneWrite gen root ∧
        its = .dictItem kval vval :: its2 ∧
        rdlTriples gen (oneReadOneWrite gen root) k rest = (its2, tail))) ∧
    (∀ (k : String) (items rest : List Node), k ∈ gen →
      rdlLoop gen (oneReadOneWrite gen root)
          (.assign (.ident k) (.dictN items) :: rest) =
        .assign (.ident k) (.dictN (items ++
            (rdlTriples gen (oneReadOneWrite gen root) k rest).1)) ::
          rdlLoop gen (oneReadOneWrite gen root)
            (rdlTriples gen (oneReadOneWrite gen root) k rest).2) ∧
    (∀ (k : String) (items rest : List Node), k ∉ gen →
      rdlLoop gen (oneReadOneWrite gen root)
          (.assign (.ident k) (.dictN items) :: rest) =
        .assign (.ident k) (.dictN items) ::
          rdlLoop gen (oneReadOneWrite gen root) rest) := by
  refine ⟨?_, ?_, ?_, ?_⟩
  · intro name
    rw [oneReadOneWrite, Finset.mem_filter]
  · intro k l its tail h
    rw [rdlTriples.eq_def] at h
    split at h
    · rename_i vn vval kn kval dn kn2 vn2 rest
      split at h
      · rename_i hg
        obtain ⟨h1, h2, h3, h4, h5, h6, h7⟩ := hg
        subst dn
        subst kn2
        subst vn2
        cases h
        exact Or.inr ⟨vn, vval, kn, kval, rest,
          (rdlTriples gen (oneReadOneWrite gen root) k rest).1,
          rfl, h1, h2, h6, h7, rfl, rfl⟩
      · cases h
        exact Or.inl ⟨rfl, rfl⟩
    · cases h
      exact Or.inl ⟨rfl, rfl⟩
  · intro k items rest hk
    rw [rdlLoop]
    rw [if_pos hk]
  · intro k items rest hk
    rw [rdlLoop]
    rw [if_neg hk]

/-- C8 counterexample: the dict variable `$2` has three reads and one
write — failing the claim's one-read-one-write requirement on `$k` — yet
the store triple is still folded into its dict literal, because the source
only tests `generated_vars` membership for the dict variable. -/
theorem c8_counterexample :
    readCount c8root "$2" = 3 ∧ writeCount c8root "$2" = 1 ∧
    ("$2" ∉ oneReadOneWrite c8gen c8root) ∧
    reconstructDictLiterals c8gen c8root = .block
      [.assign (.ident "$2") (.dictN [.dictItem (.const (.int 2)) (.const (.int 1))]),
       .assign (.ident "z") (.ident "$2"),
       .assign (.ident "w") (.ident "$2")] := by
  refine ⟨rfl, rfl, by decide, ?_⟩
  show Node.block (rdlLoop c8gen {"$0", "$1"}
    (.assign (.ident "$2") (.dictN []) :: c8rest)) = _
  rw [rdlLoop, if_pos (by decide : "$2" ∈ c8gen)]
  show Node.block (Node.assign (.ident "$2")
      (.dictN [.dictItem (.const (.int 2)) (.const (.int 1))]) ::
    rdlLoop c8gen {"$0", "$1"}
      [.assign (.ident "z") (.ident "$2"), .assign (.ident "w") (.ident "$2")]) = _
  simp only [rdlLoop]

/-- `c8_dict_folding` applied at a concrete block: the reads/writes
characterization at `$0`, a successful fold step for `$2`, a first
consumed triple, and an untouched non-generated dict assignment. -/
theorem c8_dict_folding_witness :
    ("$0" ∈ oneReadOneWrite c8gen c8root ↔
      "$0" ∈ c8gen ∧ readCount c8root "$0" = 1 ∧ writeCount c8root "$0" = 1) ∧
    rdlLoop c8gen (oneReadOneWrite c8gen c8root)
        (.assign (.ident "$2") (.dictN []) :: c8rest) =
      .assign (.ident "$2") (.dictN ([] ++
          (rdlTriples c8gen (oneReadOneWrite c8gen c8root) "$2" c8rest).1)) ::
        rdlLoop c8gen (oneReadOneWrite c8gen c8root)
          (rdlTriples c8gen (oneReadOneWrite c8gen c8root) "$2" c8rest).2 ∧
    rdlLoop c8gen (oneReadOneWrite c8gen c8root)
        (.assign (.ident "zz") (.dictN []) :: c8rest) =
      .assign (.ident "zz") (.dictN []) ::
        rdlLoop c8gen (oneReadOneWrite c8gen c8root) c8rest :=
  ⟨(c8_dict_folding c8gen c8root).1 "$0",
   (c8_dict_folding c8gen c8root).2.2.1 "$2" [] c8rest (by decide),
   (c8_dict_folding c8gen c8root).2.2.2 "zz" [] c8rest (by decide)⟩

/-! ## Claim C10 -/

/-- The run invariant of `MakeIdentifiersValid`: every replacement recorded
in `name_map` for an invalid name is in `generated_vars`, and the recorded
invalid-name mappings are injective — two entries for invalid names with
the same replacement name the same identifier. -/
def MivInv (s : MivState) : Prop :=
  (∀ p ∈ s.nameMap, ¬ isValidIdent p.1 = true → p.2 ∈ s.generatedVars) ∧
  (∀ p ∈ s.nameMap, ∀ q ∈ s.nameMap, ¬ isValidIdent p.1 = true →
    ¬ isValidIdent q.1 = true → p.2 = q.2 → p.1 = q.1)

theorem mivIdent_inv (s : MivState) (name : String) (h : MivInv s) :
    MivInv (mivIdent s name).2 := by
  obtain ⟨h1, h2⟩ := h
  by_cases hv : isValidIdent name = true
  · have he : (mivIdent s name).2 = { s with nameMap := (name, name) :: s.nameMap } := by
      rw [mivIdent, if_pos hv]
    rw [he]
    refine ⟨?_, ?_⟩
    · intro p hp hpv
      rcases List.mem_cons.mp hp with hep | hm
      · rw [hep] at hpv
        exact absurd hv hpv
      · exact h1 p hm hpv
    · intro p hp q hq hpv hqv hpq
      rcases List.mem_cons.mp hp with hep | hmp
      · rw [hep] at hpv
        exact absurd hv hpv
      · rcases List.mem_cons.mp hq with heq | hmq
        · rw [heq] at hqv
          exact absurd hv hqv
        · exact h2 p hmp q hmq hpv hqv hpq
  · cases hl : s.nameMap.lookup name with
    | some r =>
      have he : (mivIdent s name).2 = s := by
        rw [mivIdent, if_neg hv, hl]
      rw [he]
      exact ⟨h1, h2⟩
    | none =>
      have hfr := freshIdx_spec s.allVars s.nameIdx
      set j := freshIdx s.allVars s.nameIdx
      have he : (mivIdent s name).2 = { s with
          nameIdx := j + 1,
          nameMap := (name, genName j) :: s.nameMap,
          generatedVars := insert (genName j) s.generatedVars } := by
        rw [mivIdent, if_neg hv, hl]
      rw [he]
      have hfresh : genName j ∉ s.generatedVars := by
        intro hmem
        exact hfr.1 (Finset.mem_union_right _ hmem)
      refine ⟨?_, ?_⟩
      · intro p hp hpv
        rcases List.mem_cons.mp hp with hep | hm
        · rw [hep]
          exact Finset.mem_insert_self _ _
        · exact Finset.mem_insert_of_mem (h1 p hm hpv)
      · intro p hp q hq hpv hqv hpq
        rcases List.mem_cons.mp hp with hep | hmp
        · rcases List.mem_cons.mp hq with heq | hmq
          · rw [hep, heq]
          · exfalso
            have hq2 := h1 q hmq hqv
            rw [hep] at hpq
            rw [← hpq] at hq2
            exact hfresh hq2
        · rcases List.mem_cons.mp hq with heq | hmq
          · exfalso
            have hp2 := h1 p hmp hpv
            rw [heq] at hpq
            rw [hpq] at hp2
            exact hfresh hp2
          · exact h2 p hmp q hmq hpv hqv hpq

theorem mivIdent_fresh (s : MivState) (name : String)
    (hv : ¬ isValidIdent name = true) (hl : s.nameMap.lookup name = none) :
    (mivIdent s name).1 ∉ s.allVars ∧
    (mivIdent s name).1 ∈ (mivIdent s name).2.generatedVars ∧
    (mivIdent s name).2.nameMap.lookup name = some (mivIdent s name).1 := by
  have hfr := freshIdx_spec s.allVars s.nameIdx
  have he1 : (mivIdent s name).1 = genName (freshIdx s.allVars s.nameIdx) := by
    rw [mivIdent, if_neg hv, hl]
  have he2 : (mivIdent s name).2 = { s with
      nameIdx := freshIdx s.allVars s.nameIdx + 1,
      nameMap := (name, genName (freshIdx s.allVars s.nameIdx)) :: s.nameMap,
      generatedVars := insert (genName (freshIdx s.allVars s.nameIdx))
        s.generatedVars } := by
    rw [mivIdent, if_neg hv, hl]
  rw [he1, he2]
  refine ⟨hfr.1, Finset.mem_insert_self _ _, ?_⟩
  simp [List.lookup]

mutual

theorem mivNode_inv (s : MivState) (n : Node) (h : MivInv s) :
    MivInv (mivNode s n).2 := by
  cases n with
  | block ns => exact mivList_inv s ns h
  | tupleN ns => exact mivList_inv s ns h
  | listN ns => exact mivList_inv s ns h
  | printN ns => exact mivList_inv s ns h
  | printNoNewline ns => exact mivList_inv s ns h
  | globalN ns => exact mivList_inv s ns h
  | dictN ns => exact mivList_inv s ns h
  | dictItem k v => exact mivNode_inv (mivNode s k).2 v (mivNode_inv s k h)
  | opcode off sz op arg => exact mivOpt_inv s arg h
  | const v => exact h
  | docstr v => exact h
  | comment v => exact h
  | ident x => exact mivIdent_inv s x h
  | delN c => exact mivNode_inv s c h
  | passN => exact h
  | returnN c => exact mivNode_inv s c h
  | ifN c t f =>
    exact mivOpt_inv (mivNode (mivNode s c).2 t).2 f
      (mivNode_inv (mivNode s c).2 t (mivNode_inv s c h))
  | elseN b => exact mivNode_inv s b h
  | unary op c => exact mivNode_inv s c h
  | binary op l r => exact mivNode_inv (mivNode s l).2 r (mivNode_inv s l h)
  | slice t l u =>
    exact mivNode_inv (mivNode (mivNode s t).2 l).2 u
      (mivNode_inv (mivNode s t).2 l (mivNode_inv s t h))
  | call f a kw =>
    exact mivNode_inv (mivNode (mivNode s f).2 a).2 kw
      (mivNode_inv (mivNode s f).2 a (mivNode_inv s f h))
  | raiseN e => exact mivNode_inv s e h
  | sliceRange a b c =>
    exact mivNode_inv (mivNode (mivNode s a).2 b).2 c
      (mivNode_inv (mivNode s a).2 b (mivNode_inv s a h))
  | assign l r => exact mivNode_inv (mivNode s l).2 r (mivNode_inv s l h)
  | attr l r => exact mivNode_inv (mivNode s l).2 r (mivNode_inv s l h)
  | basicBlock st ns nx d => exact h

theorem mivList_inv (s : MivState) (ns : List Node) (h : MivInv s) :
    MivInv (mivList s ns).2 := by
  cases ns with
  | nil => exact h
  | cons n rest => exact mivList_inv (mivNode s n).2 rest (mivNode_inv s n h)

theorem mivOpt_inv (s : MivState) (o : Option Node) (h : MivInv s) :
    MivInv (mivOpt s o).2 := by
  cases o with
  | none => exact h
  | some n => exact mivNode_inv s n h

end

/-- C10: within one `MakeIdentifiersValid` run the invalid-name renaming is
injective — the final `name_map` never sends two distinct invalid names to
the same replacement, and every replacement of an invalid name is in
`generated_vars`; moreover whenever a fresh replacement is chosen for a
not-yet-mapped invalid name, it is absent from all of the `Context`'s
variable sets at that moment and is added to `generated_vars` (and to the
`name_map`) immediately. -/
theorem c10_injective_renaming (g l gen : Finset String) (root : Node) :
    MivInv (makeIdentifiersValid g l gen root).2 ∧
    (∀ (s : MivState) (name : String), ¬ isValidIdent name = true →
      s.nameMap.lookup name = none →
      (mivIdent s name).1 ∉ s.allVars ∧
      (mivIdent s name).1 ∈ (mivIdent s name).2.generatedVars ∧
      (mivIdent s name).2.nameMap.lookup name = some (mivIdent s name).1) := by
  constructor
  · refine mivNode_inv _ root ⟨?_, ?_⟩
    · intro p hp
      exact absurd hp (List.not_mem_nil p)
    · intro p hp
      exact absurd hp (List.not_mem_nil p)
  · intro s name hv hl
    exact mivIdent_fresh s name hv hl

/-- `c10_injective_renaming` at a concrete run: two invalid temporaries are
renamed to the fresh names `b` and `c` (skipping the occupied `a`), and the
step-level freshness holds at the initial state. -/
theorem c10_injective_renaming_witness :
    (makeIdentifiersValid ∅ ∅ {"a"} (.block [.ident "$0", .ident "$1"])).1 =
      .block [.ident "b", .ident "c"] ∧
    MivInv (makeIdentifiersValid ∅ ∅ {"a"} (.block [.ident "$0", .ident "$1"])).2 ∧
    (mivIdent ⟨0, [], ∅, ∅, {"a"}⟩ "$0").1 ∉ (MivState.mk 0 [] ∅ ∅ {"a"}).allVars ∧
    (mivIdent ⟨0, [], ∅, ∅, {"a"}⟩ "$0").1 ∈
      (mivIdent ⟨0, [], ∅, ∅, {"a"}⟩ "$0").2.generatedVars :=
  ⟨rfl,
   (c10_injective_renaming ∅ ∅ {"a"} (.block [.ident "$0", .ident "$1"])).1,
   ((c10_injective_renaming ∅ ∅ {"a"} (.block [.ident "$0", .ident "$1"])).2
      ⟨0, [], ∅, ∅, {"a"}⟩ "$0" (by decide) rfl).1,
   ((c10_injective_renaming ∅ ∅ {"a"} (.block [.ident "$0", .ident "$1"])).2
      ⟨0, [], ∅, ∅, {"a"}⟩ "$0" (by decide) rfl).2.1⟩

/-! ## Claim C7 -/

/-- The successor relation of a basic-block list: `u → v` when some block
starting at `u` lists `v` among its successors (`b.next`). -/
def edgeOf (blocks : List BBlock) (u v : Nat) : Prop :=
  ∃ blk ∈ blocks, blk.start = u ∧ v ∈ blk.next

/-- A path in the successor graph, as the list of visited block starts. -/
def PathL (blocks : List BBlock) (s : Nat) (l : List Nat) (t : Nat) : Prop :=
  List.Chain' (edgeOf blocks) l ∧ l.head? = some s ∧ l.getLast? = some t

/-- `x` dominates `b` (relative to the entry `start`): every path from the
entry to `b` passes through `x`. -/
def DomP (blocks : List BBlock) (start x b : Nat) : Prop :=
  ∀ l, PathL blocks start l b → x ∈ l

theorem mem_prevStarts (blocks : List BBlock) (p b : Nat) :
    p ∈ prevStarts blocks b ↔ edgeOf blocks p b := by
  simp only [prevStarts, edgeOf, List.mem_flatMap, List.mem_map, List.mem_filter,
    decide_eq_true_eq]
  constructor
  · rintro ⟨blk, hblk, _, ⟨hx, hxb⟩, hp⟩
    exact ⟨blk, hblk, hp, hxb ▸ hx⟩
  · rintro ⟨blk, hblk, hp, hb⟩
    exact ⟨blk, hblk, b, ⟨hb, rfl⟩, hp⟩

theorem foldl_inter_mem (dm : Nat → Finset Nat) (x : Nat) :
    ∀ (l : List Nat) (univ : Finset Nat),
      (x ∈ l.foldl (fun acc p => acc ∩ dm p) univ ↔ x ∈ univ ∧ ∀ p ∈ l, x ∈ dm p) := by
  intro l
  induction l with
  | nil => simp
  | cons p rest ih =>
    intro univ
    rw [List.foldl_cons, ih]
    simp only [Finset.mem_inter, List.mem_cons]
    constructor
    · rintro ⟨⟨h1, h2⟩, h3⟩
      exact ⟨h1, fun q hq => hq.elim (fun he => he ▸ h2) (h3 q)⟩
    · rintro ⟨h1, h2⟩
      exact ⟨⟨h1, h2 p (Or.inl rfl)⟩, fun q hq => h2 q (Or.inr hq)⟩

theorem domRecompute_mem (univ : Finset Nat) (blocks : List BBlock)
    (dm : Nat → Finset Nat) (b x : Nat) :
    x ∈ domRecompute univ blocks dm b ↔
      x = b ∨ (x ∈ univ ∧ ∀ p, edgeOf blocks p b → x ∈ dm p) := by
  rw [domRecompute]
  rw [Finset.mem_union, Finset.mem_singleton, foldl_inter_mem]
  constructor
  · rintro (⟨h1, h2⟩ | h)
    · exact Or.inr ⟨h1, fun p hp => h2 p ((mem_prevStarts blocks p b).mpr hp)⟩
    · exact Or.inl h
  · rintro (h | ⟨h1, h2⟩)
    · exact Or.inr h
    · exact Or.inl ⟨h1, fun p hp => h2 p ((mem_prevStarts blocks p b).mp hp)⟩

theorem domRecompute_subset_univ (univ : Finset Nat) (blocks : List BBlock)
    (dm : Nat → Finset Nat) (b : Nat) (hb : b ∈ univ) :
    domRecompute univ blocks dm b ⊆ univ := by
  intro x hx
  rcases (domRecompute_mem univ blocks dm b x).mp hx with he | ⟨h1, _⟩
  · exact he ▸ hb
  · exact h1

theorem domRecompute_subset_pred (univ : Finset Nat) (blocks : List BBlock)
    (dm : Nat → Finset Nat) (b p : Nat) (hp : edgeOf blocks p b) :
    domRecompute univ blocks dm b ⊆ insert b (dm p) := by
  intro x hx
  rcases (domRecompute_mem univ blocks dm b x).mp hx with he | ⟨_, h2⟩
  · rw [he]
    exact Finset.mem_insert_self b _
  · exact Finset.mem_insert_of_mem (h2 p hp)

theorem domPassRun_cons (univ : Finset Nat) (blocks : List BBlock) (b : Nat)
    (rest : List Nat) (dm : Nat → Finset Nat) :
    domPassRun univ blocks (b :: rest) dm =
      ((domPassRun univ blocks rest
          (fun x => if x = b then domRecompute univ blocks dm b else dm x)).1,
       decide (domRecompute univ blocks dm b ≠ dm b) ||
         (domPassRun univ blocks rest
           (fun x => if x = b then domRecompute univ blocks dm b else dm x)).2) :=
  rfl

theorem domPassRun_preserve (univ : Finset Nat) (blocks : List BBlock) :
    ∀ (pending : List Nat) (dm : Nat → Finset Nat) (x : Nat), x ∉ pending →
      (domPassRun univ blocks pending dm).1 x = dm x := by
  intro pending
  induction pending with
  | nil =>
    intro dm x _
    rfl
  | cons b rest ih =>
    intro dm x hx
    rw [domPassRun_cons]
    have hxb : x ≠ b := fun he => hx (he ▸ List.mem_cons_self b rest)
    have hxr : x ∉ rest := fun hm => hx (List.mem_cons_of_mem b hm)
    rw [ih _ x hxr]
    simp [hxb]

theorem domPassRun_false (univ : Finset Nat) (blocks : List BBlock) :
    ∀ (pending : List Nat) (dm : Nat → Finset Nat),
      (domPassRun univ blocks pending dm).2 = false →
      (domPassRun univ blocks pending dm).1 = dm ∧
      ∀ b ∈ pending, domRecompute univ blocks dm b = dm b := by
  intro pending
  induction pending with
  | nil =>
    intro dm _
    exact ⟨rfl, fun b hb => absurd hb (List.not_mem_nil b)⟩
  | cons b rest ih =>
    intro dm h
    rw [domPassRun_cons] at h ⊢
    simp only [Bool.or_eq_false_iff, decide_eq_false_iff_not, not_not] at h
    obtain ⟨hds, hch⟩ := h
    have hdm2 : (fun x => if x = b then domRecompute univ blocks dm b else dm x) = dm := by
      funext x
      by_cases hx : x = b
      · rw [if_pos hx, hx, hds]
      · rw [if_neg hx]
    rw [hdm2] at hch ⊢
    obtain ⟨h1, h2⟩ := ih dm hch
    refine ⟨h1, ?_⟩
    intro c hc
    rcases List.mem_cons.mp hc with he | hm
    · exact he ▸ hds
    · exact h2 c hm

theorem domIterate_succ (univ : Finset Nat) (blocks : List BBlock) (pending : List Nat)
    (fuel : Nat) (dm0 : Nat → Finset Nat) :
    domIterate univ blocks pending (fuel + 1) dm0 =
      if (domPassRun univ blocks pending dm0).2 = true then
        domIterate univ blocks pending fuel (domPassRun univ blocks pending dm0).1
      else some (domPassRun univ blocks pending dm0).1 :=
  rfl

theorem domIterate_some (univ : Finset Nat) (blocks : List BBlock) (pending : List Nat) :
    ∀ (fuel : Nat) (dm0 dm : Nat → Finset Nat),
      domIterate univ blocks pending fuel dm0 = some dm →
      (∀ b ∈ pending, domRecompute univ blocks dm b = dm b) ∧
      (∀ x, x ∉ pending → dm x = dm0 x) := by
  intro fuel
  induction fuel with
  | zero =>
    intro dm0 dm h
    cases h
  | succ fuel ih =>
    intro dm0 dm h
    rw [domIterate_succ] at h
    by_cases hch : (domPassRun univ blocks pending dm0).2 = true
    · rw [if_pos hch] at h
      obtain ⟨h1, h2⟩ := ih _ dm h
      refine ⟨h1, ?_⟩
      intro x hx
      rw [h2 x hx, domPassRun_preserve univ blocks pending dm0 x hx]
    · rw [if_neg hch] at h
      cases h
      have hfalse : (domPassRun univ blocks pending dm0).2 = false :=
        Bool.eq_false_iff.mpr hch
      obtain ⟨h1, h2⟩ := domPassRun_false univ blocks pending dm0 hfalse
      rw [h1]
      exact ⟨h2, fun x _ => rfl⟩

theorem pathL_single (blocks : List BBlock) (s : Nat) : PathL blocks s [s] s :=
  ⟨List.chain'_singleton s, rfl, rfl⟩

theorem pathL_extend (blocks : List BBlock) (s t v : Nat) (l : List Nat)
    (h : PathL blocks s l t) (he : edgeOf blocks t v) : PathL blocks s (l ++ [v]) v := by
  obtain ⟨hc, hh, hl⟩ := h
  refine ⟨?_, ?_, List.getLast?_concat l⟩
  · rw [List.chain'_append]
    refine ⟨hc, List.chain'_singleton v, ?_⟩
    intro x hx y hy
    rw [hl] at hx
    cases hx
    cases hy
    exact he
  · cases l with
    | nil => cases hh
    | cons a rest => exact hh

theorem reaches_iff_path (blocks : List BBlock) (s t : Nat) :
    Relation.ReflTransGen (edgeOf blocks) s t ↔ ∃ l, PathL blocks s l t := by
  constructor
  · intro h
    induction h with
    | refl => exact ⟨[s], pathL_single blocks s⟩
    | tail _ he ih =>
      obtain ⟨l, hl⟩ := ih
      exact ⟨_, pathL_extend blocks s _ _ l hl he⟩
  · rintro ⟨l, hl⟩
    induction l generalizing s with
    | nil => cases hl.2.1
    | cons a rest ih =>
      obtain ⟨hc, hh, hlast⟩ := hl
      have ha : a = s := by
        cases hh
        rfl
      subst ha
      cases rest with
      | nil =>
        cases hlast
        exact Relation.ReflTransGen.refl
      | cons b rest2 =>
        have hedge : edgeOf blocks a b := (List.chain'_cons.mp hc).1
        have htl : PathL blocks b (b :: rest2) t :=
          ⟨(List.chain'_cons.mp hc).2, rfl, hlast⟩
        exact Relation.ReflTransGen.head hedge (ih b htl)

theorem pathL_snoc (blocks : List BBlock) (s t : Nat) (l : List Nat)
    (h : PathL blocks s l t) :
    (l = [t] ∧ s = t) ∨
    ∃ l2 c, l = l2 ++ [t] ∧ PathL blocks s l2 c ∧ edgeOf blocks c t := by
  obtain ⟨hc, hh, hl⟩ := h
  rcases List.eq_nil_or_concat l with he | ⟨l2, a, he⟩
  · rw [he] at hh
    cases hh
  · rw [List.concat_eq_append] at he
    subst he
    rw [List.getLast?_concat] at hl
    have ha : a = t := by
      cases hl
      rfl
    subst ha
    cases l2 with
    | nil =>
      left
      have : s = a := by
        cases hh
        rfl
      exact ⟨rfl, this⟩
    | cons d rest =>
      right
      have hsplit := List.chain'_append.mp hc
      have hne : (d :: rest).getLast? = some ((d :: rest).getLast (by simp)) :=
        List.getLast?_eq_getLast _ (by simp)
      refine ⟨d :: rest, (d :: rest).getLast (by simp), rfl, ⟨hsplit.1, ?_, hne⟩, ?_⟩
      · exact hh
      · exact hsplit.2.2 _ hne _ rfl

theorem dm_sound_aux (blocks : List BBlock) (start : Nat) (univ : Finset Nat)
    (dm : Nat → Finset Nat) (hs : dm start = {start})
    (hFP : ∀ b, b ∈ univ → b ≠ start → dm b = domRecompute univ blocks dm b)
    (hsucc : ∀ blk ∈ blocks, ∀ t ∈ blk.next, t ∈ univ) :
    ∀ (n : Nat) (l : List Nat) (b x : Nat), l.length = n →
      PathL blocks start l b → x ∉ l → x ∉ dm b := by
  intro n
  induction n using Nat.strong_induction_on with
  | _ n ih =>
    intro l b x hlen hp hx
    rcases pathL_snoc blocks start b l hp with ⟨hl, hsb⟩ | ⟨l2, c, hl, hp2, he⟩
    · rw [← hsb, hs]
      rw [hl] at hx
      intro hmem
      rw [Finset.mem_singleton] at hmem
      exact hx (by rw [hmem, hsb]; exact List.mem_cons_self _ _)
    · have hxl2 : x ∉ l2 := fun hm => hx (by rw [hl]; exact List.mem_append_left _ hm)
      have hxb : x ≠ b := fun hm => hx (by rw [hl, hm]; exact List.mem_append_right _ (by simp))
      have hlt : l2.length < n := by
        rw [← hlen, hl]
        simp
      have hxc : x ∉ dm c := ih l2.length hlt l2 c x rfl hp2 hxl2
      by_cases hbs : b = start
      · rw [hbs, hs]
        intro hmem
        rw [Finset.mem_singleton] at hmem
        exact hxb (by rw [hmem, hbs])
      · have hbu : b ∈ univ := by
          obtain ⟨blk, hblk, hcs, hbn⟩ := he
          exact hsucc blk hblk b hbn
        rw [hFP b hbu hbs]
        intro hmem
        rcases (domRecompute_mem univ blocks dm b x).mp hmem with hxe | ⟨_, hall⟩
        · exact hxb hxe
        · exact hxc (hall c he)

theorem dm_sound (blocks : List BBlock) (start : Nat) (univ : Finset Nat)
    (dm : Nat → Finset Nat) (hs : dm start = {start})
    (hFP : ∀ b, b ∈ univ → b ≠ start → dm b = domRecompute univ blocks dm b)
    (hsucc : ∀ blk ∈ blocks, ∀ t ∈ blk.next, t ∈ univ)
    (b x : Nat) (hx : x ∈ dm b) : DomP blocks start x b := by
  intro l hl
  by_contra hxl
  exact dm_sound_aux blocks start univ dm hs hFP hsucc l.length l b x rfl hl hxl hx

/-- The invariant carried through the dataflow iteration: every true
dominator (in the universe) is still in the running dominator set. -/
def DomInvP (blocks : List BBlock) (start : Nat) (univ : Finset Nat)
    (dm : Nat → Finset Nat) : Prop :=
  ∀ b x, x ∈ univ → DomP blocks start x b → x ∈ dm b

theorem dom_extend (blocks : List BBlock) (start x b p : Nat)
    (hdom : DomP blocks start x b) (hxb : x ≠ b) (he : edgeOf blocks p b) :
    DomP blocks start x p := by
  intro l hl
  by_contra hxl
  rcases List.mem_append.mp (hdom (l ++ [b]) (pathL_extend blocks start p b l hl he)) with
    hm | hm
  · exact hxl hm
  · rw [List.mem_singleton] at hm
    exact hxb hm

theorem domPassRun_invP (blocks : List BBlock) (start : Nat) (univ : Finset Nat) :
    ∀ (pending : List Nat) (dm : Nat → Finset Nat),
      DomInvP blocks start univ dm →
      DomInvP blocks start univ (domPassRun univ blocks pending dm).1 := by
  intro pending
  induction pending with
  | nil =>
    intro dm h
    exact h
  | cons b rest ih =>
    intro dm h
    rw [domPassRun_cons]
    refine ih _ ?_
    intro b' x hxu hdom
    dsimp only
    by_cases hb' : b' = b
    · subst hb'
      rw [if_pos rfl]
      by_cases hxb : x = b'
      · exact (domRecompute_mem univ blocks dm b' x).mpr (Or.inl hxb)
      · refine (domRecompute_mem univ blocks dm b' x).mpr (Or.inr ⟨hxu, ?_⟩)
        intro p hp
        exact h p x hxu (dom_extend blocks start x b' p hdom hxb hp)
    · rw [if_neg hb']
      exact h b' x hxu hdom

theorem domIterate_invP (blocks : List BBlock) (start : Nat) (univ : Finset Nat)
    (pending : List Nat) :
    ∀ (fuel : Nat) (dm0 dm : Nat → Finset Nat), DomInvP blocks start univ dm0 →
      domIterate univ blocks pending fuel dm0 = some dm →
      DomInvP blocks start univ dm := by
  intro fuel
  induction fuel with
  | zero =>
    intro dm0 dm _ h
    cases h
  | succ fuel ih =>
    intro dm0 dm h0 h
    rw [domIterate_succ] at h
    by_cases hch : (domPassRun univ blocks pending dm0).2 = true
    · rw [if_pos hch] at h
      exact ih _ dm (domPassRun_invP blocks start univ pending dm0 h0) h
    · rw [if_neg hch] at h
      cases h
      exact domPassRun_invP blocks start univ pending dm0 h0

theorem domInvP_init (blocks : List BBlock) (start : Nat) (univ : Finset Nat) :
    DomInvP blocks start univ (fun b => if b = start then {start} else univ) := by
  intro b x hxu hdom
  dsimp only
  by_cases hb : b = start
  · subst hb
    have hx : x ∈ [b] := hdom [b] (pathL_single blocks b)
    rw [List.mem_singleton] at hx
    simp [hx]
  · rw [if_neg hb]
    exact hxu

/-- The characterization of the computed dominator sets on the block
universe: membership is exactly true (path-based) domination by a block of
the universe. -/
theorem dm_char (blocks : List BBlock) (start : Nat) (univ : Finset Nat)
    (dm : Nat → Finset Nat) (hs : dm start = {start})
    (hFP : ∀ b, b ∈ univ → b ≠ start → dm b = domRecompute univ blocks dm b)
    (hsucc : ∀ blk ∈ blocks, ∀ t ∈ blk.next, t ∈ univ)
    (hstart : start ∈ univ)
    (hinv : DomInvP blocks start univ dm)
    (b : Nat) (hb : b ∈ univ) (x : Nat) :
    x ∈ dm b ↔ x ∈ univ ∧ DomP blocks start x b := by
  constructor
  · intro hx
    refine ⟨?_, dm_sound blocks start univ dm hs hFP hsucc b x hx⟩
    by_cases hbs : b = start
    · rw [hbs, hs] at hx
      rw [Finset.mem_singleton] at hx
      rw [hx]
      exact hstart
    · rw [hFP b hb hbs] at hx
      exact domRecompute_subset_univ univ blocks dm b hb hx
  · rintro ⟨h1, h2⟩
    exact hinv b x h1 h2

theorem dm_self (blocks : List BBlock) (start : Nat) (univ : Finset Nat)
    (dm : Nat → Finset Nat) (hs : dm start = {start})
    (hFP : ∀ b, b ∈ univ → b ≠ start → dm b = domRecompute univ blocks dm b)
    (b : Nat) (hb : b ∈ univ) : b ∈ dm b := by
  by_cases hbs : b = start
  · rw [hbs, hs]
    exact Finset.mem_singleton_self start
  · rw [hFP b hb hbs]
    exact (domRecompute_mem univ blocks dm b b).mpr (Or.inl rfl)

theorem domP_start (blocks : List BBlock) (start b : Nat) :
    DomP blocks start start b := by
  intro l hl
  cases l with
  | nil => cases hl.2.1
  | cons a rest =>
    have : a = start := by
      cases hl.2.1
      rfl
    rw [← this]
    exact List.mem_cons_self a rest

theorem dm_start_mem (blocks : List BBlock) (start : Nat) (univ : Finset Nat)
    (dm : Nat → Finset Nat) (hstart : start ∈ univ)
    (hinv : DomInvP blocks start univ dm) (b : Nat) : start ∈ dm b :=
  hinv b start hstart (domP_start blocks start b)

/-- The hypotheses under which the dominator development proceeds: the
computed map is a fixed point with `dm start = {start}`, block successors
stay in the universe, the entry is a block, and the invariant of the
iteration holds. -/
structure DomSetup (blocks : List BBlock) (start : Nat) (univ : Finset Nat)
    (dm : Nat → Finset Nat) : Prop where
  hs : dm start = {start}
  hFP : ∀ b, b ∈ univ → b ≠ start → dm b = domRecompute univ blocks dm b
  hsucc : ∀ blk ∈ blocks, ∀ t ∈ blk.next, t ∈ univ
  hstart : start ∈ univ
  hinv : DomInvP blocks start univ dm

theorem dm_subset_univ (blocks : List BBlock) (start : Nat) (univ : Finset Nat)
    (dm : Nat → Finset Nat) (H : DomSetup blocks start univ dm)
    (b : Nat) (hb : b ∈ univ) : dm b ⊆ univ := by
  by_cases hbs : b = start
  · rw [hbs, H.hs]
    intro x hx
    rw [Finset.mem_singleton] at hx
    rw [hx]
    exact H.hstart
  · rw [H.hFP b hb hbs]
    exact domRecompute_subset_univ univ blocks dm b hb

theorem edge_target_univ (blocks : List BBlock) (univ : Finset Nat)
    (hsucc : ∀ blk ∈ blocks, ∀ t ∈ blk.next, t ∈ univ)
    (c b : Nat) (he : edgeOf blocks c b) : b ∈ univ := by
  obtain ⟨blk, hblk, _, hbn⟩ := he
  exact hsucc blk hblk b hbn

theorem dm_chain (blocks : List BBlock) (start : Nat) (univ : Finset Nat)
    (dm : Nat → Finset Nat) (H : DomSetup blocks start univ dm) (b : Nat)
    (hr : Relation.ReflTransGen (edgeOf blocks) start b) :
    ∀ x ∈ dm b, ∀ y ∈ dm b, x ∈ dm y ∨ y ∈ dm x := by
  induction hr with
  | refl =>
    intro x hx y hy
    rw [H.hs, Finset.mem_singleton] at hx hy
    subst hx
    subst hy
    left
    rw [H.hs]
    exact Finset.mem_singleton_self _
  | @tail c b2 hrc he ih =>
    intro x hx y hy
    by_cases hb2 : b2 = start
    · subst hb2
      rw [H.hs, Finset.mem_singleton] at hx hy
      subst hx
      subst hy
      left
      rw [H.hs]
      exact Finset.mem_singleton_self _
    · have hbu : b2 ∈ univ := edge_target_univ blocks univ H.hsucc c b2 he
      have hsub : dm b2 ⊆ insert b2 (dm c) := by
        rw [H.hFP b2 hbu hb2]
        exact domRecompute_subset_pred univ blocks dm b2 c he
      rcases Finset.mem_insert.mp (hsub hx) with hxe | hxc
      · right
        rw [← hxe] at hy
        exact hy
      · rcases Finset.mem_insert.mp (hsub hy) with hye | hyc
        · left
          rw [← hye] at hx
          exact hx
        · exact ih x hxc y hyc

theorem dm_reachable (blocks : List BBlock) (start : Nat) (univ : Finset Nat)
    (dm : Nat → Finset Nat) (H : DomSetup blocks start univ dm) (b : Nat)
    (hr : Relation.ReflTransGen (edgeOf blocks) start b) :
    ∀ x ∈ dm b, Relation.ReflTransGen (edgeOf blocks) start x := by
  induction hr with
  | refl =>
    intro x hx
    rw [H.hs, Finset.mem_singleton] at hx
    rw [hx]
  | @tail c b2 hrc he ih =>
    intro x hx
    by_cases hb2 : b2 = start
    · subst hb2
      rw [H.hs, Finset.mem_singleton] at hx
      rw [hx]
    · have hbu : b2 ∈ univ := edge_target_univ blocks univ H.hsucc c b2 he
      have hsub : dm b2 ⊆ insert b2 (dm c) := by
        rw [H.hFP b2 hbu hb2]
        exact domRecompute_subset_pred univ blocks dm b2 c he
      rcases Finset.mem_insert.mp (hsub hx) with hxe | hxc
      · rw [hxe]
        exact Relation.ReflTransGen.tail hrc he
      · exact ih x hxc

theorem exists_min_path (blocks : List BBlock) (start x : Nat)
    (h : Relation.ReflTransGen (edgeOf blocks) start x) :
    ∃ l, PathL blocks start l x ∧
      ∀ l2, PathL blocks start l2 x → l.length ≤ l2.length := by
  obtain ⟨l0, hl0⟩ := (reaches_iff_path blocks start x).mp h
  classical
  have hex : ∃ n, ∃ l, PathL blocks start l x ∧ l.length = n := ⟨l0.length, l0, hl0, rfl⟩
  obtain ⟨l, hl, hlen⟩ := Nat.find_spec hex
  refine ⟨l, hl, ?_⟩
  intro l2 hl2
  rw [hlen]
  exact Nat.find_min' hex ⟨l2, hl2, rfl⟩

theorem pathL_prefix (blocks : List BBlock) (s t y : Nat) (l : List Nat)
    (h : PathL blocks s l t) (hy : y ∈ l) :
    ∃ l1 l2, l = l1 ++ y :: l2 ∧ PathL blocks s (l1 ++ [y]) y := by
  obtain ⟨l1, l2, he⟩ := List.append_of_mem hy
  subst he
  obtain ⟨hc, hh, hlast⟩ := h
  refine ⟨l1, l2, rfl, ?_, ?_, List.getLast?_concat l1⟩
  · have h2 : l1 ++ y :: l2 = (l1 ++ [y]) ++ l2 := by simp
    rw [h2] at hc
    exact (List.chain'_append.mp hc).1
  · cases l1 with
    | nil => exact hh
    | cons a rest => exact hh

theorem dm_antisymm (blocks : List BBlock) (start : Nat) (univ : Finset Nat)
    (dm : Nat → Finset Nat) (H : DomSetup blocks start univ dm)
    (x y : Nat) (hrx : Relation.ReflTransGen (edgeOf blocks) start x)
    (hxy : x ∈ dm y) (hyx : y ∈ dm x) : x = y := by
  by_contra hne
  obtain ⟨l, hl, hmin⟩ := exists_min_path blocks start x hrx
  have hyl : y ∈ l :=
    dm_sound blocks start univ dm H.hs H.hFP H.hsucc x y hyx l hl
  obtain ⟨l1, l2, he, hp1⟩ := pathL_prefix blocks start x y l hl hyl
  have hxl1y : x ∈ l1 ++ [y] :=
    dm_sound blocks start univ dm H.hs H.hFP H.hsucc y x hxy (l1 ++ [y]) hp1
  have hxl1 : x ∈ l1 := by
    rcases List.mem_append.mp hxl1y with hm | hm
    · exact hm
    · rw [List.mem_singleton] at hm
      exact absurd hm hne
  obtain ⟨l3, l4, he2, hp2⟩ :=
    pathL_prefix blocks start y x (l1 ++ [y]) hp1 (List.mem_append_left _ hxl1)
  have hmin2 := hmin (l3 ++ [x]) hp2
  have hlen : l.length = l1.length + 1 + l2.length := by
    rw [he]
    simp
    omega
  have hlen2 : l1.length + 1 = l3.length + 1 + l4.length := by
    have h5 := congrArg List.length he2
    simp at h5
    omega
  cases l4 with
  | nil =>
    have hyx2 : y = x := by
      have h3 : (l1 ++ [y]).getLast? = (l3 ++ x :: []).getLast? := by rw [he2]
      rw [List.getLast?_concat] at h3
      have h4 : (l3 ++ [x]).getLast? = some x := List.getLast?_concat l3
      rw [h4] at h3
      cases h3
      rfl
    exact hne hyx2.symm
  | cons a rest =>
    have : (l3 ++ [x]).length = l3.length + 1 := by simp
    rw [this] at hmin2
    simp only [List.length_cons] at hlen2
    omega

theorem dm_trans (blocks : List BBlock) (start : Nat) (univ : Finset Nat)
    (dm : Nat → Finset Nat) (H : DomSetup blocks start univ dm)
    (b d x : Nat) (hb : b ∈ univ) (hdb : d ∈ dm b) (hxd : x ∈ dm d) :
    x ∈ dm b := by
  have hdu : d ∈ univ := dm_subset_univ blocks start univ dm H b hb hdb
  have hxu : x ∈ univ := dm_subset_univ blocks start univ dm H d hdu hxd
  refine (dm_char blocks start univ dm H.hs H.hFP H.hsucc H.hstart H.hinv b hb x).mpr
    ⟨hxu, ?_⟩
  intro l hl
  have hdl : d ∈ l :=
    dm_sound blocks start univ dm H.hs H.hFP H.hsucc b d hdb l hl
  obtain ⟨l1, l2, he, hp1⟩ := pathL_prefix blocks start b d l hl hdl
  have hxl1 : x ∈ l1 ++ [d] :=
    dm_sound blocks start univ dm H.hs H.hFP H.hsucc d x hxd (l1 ++ [d]) hp1
  rw [he]
  rcases List.mem_append.mp hxl1 with hm | hm
  · exact List.mem_append_left _ hm
  · rw [List.mem_singleton] at hm
    rw [hm]
    exact List.mem_append_right _ (List.mem_cons_self _ _)

theorem finset_chain_max (r : Nat → Nat → Prop) :
    ∀ (s : Finset Nat), s.Nonempty →
      (∀ x ∈ s, ∀ y ∈ s, r x y ∨ r y x) →
      (∀ x ∈ s, ∀ y ∈ s, ∀ z ∈ s, r x y → r y z → r x z) →
      ∃ m ∈ s, ∀ x ∈ s, r x m := by
  intro s
  induction s using Finset.induction_on with
  | empty =>
    intro h _ _
    exact absurd h Finset.not_nonempty_empty
  | insert ha ih =>
    rename_i a s2
    intro _ htot htrans
    rcases s2.eq_empty_or_nonempty with he | hne2
    · subst he
      refine ⟨a, Finset.mem_insert_self a ∅, ?_⟩
      intro x hx
      rcases Finset.mem_insert.mp hx with he2 | h2
      · subst he2
        rcases htot x hx x hx with h3 | h3
        · exact h3
        · exact h3
      · exact absurd h2 (Finset.not_mem_empty x)
    · obtain ⟨m, hm, hmax⟩ := ih hne2
        (fun x hx y hy =>
          htot x (Finset.mem_insert_of_mem hx) y (Finset.mem_insert_of_mem hy))
        (fun x hx y hy z hz =>
          htrans x (Finset.mem_insert_of_mem hx) y (Finset.mem_insert_of_mem hy)
            z (Finset.mem_insert_of_mem hz))
      rcases htot a (Finset.mem_insert_self a s2) m (Finset.mem_insert_of_mem hm) with
        ham | hma
      · refine ⟨m, Finset.mem_insert_of_mem hm, ?_⟩
        intro x hx
        rcases Finset.mem_insert.mp hx with he2 | h2
        · rw [he2]
          exact ham
        · exact hmax x h2
      · refine ⟨a, Finset.mem_insert_self a s2, ?_⟩
        intro x hx
        rcases Finset.mem_insert.mp hx with he2 | h2
        · rw [he2]
          rcases htot a (Finset.mem_insert_self a s2) a (Finset.mem_insert_self a s2) with
            h3 | h3
          · exact h3
          · exact h3
        · exact htrans x hx m (Finset.mem_insert_of_mem hm) a
            (Finset.mem_insert_self a s2) (hmax x h2) hma

theorem idomOf_eq_some (dm : Nat → Finset Nat) (b d : Nat)
    (h : idomOf dm b = some d) :
    (dm b).filter (fun x => dm x = dm b \ {b}) = {d} := by
  simp only [idomOf] at h
  rcases hsort : ((dm b).filter (fun x => dm x = dm b \ {b})).sort (fun x y => x ≤ y) with
    _ | ⟨a, rest⟩
  · rw [hsort] at h
    cases h
  · rcases rest with _ | ⟨a2, rest2⟩
    · rw [hsort] at h
      have had : a = d := by
        cases h
        rfl
      subst had
      have hcard : ((dm b).filter (fun x => dm x = dm b \ {b})).card = 1 := by
        rw [← Finset.length_sort (fun x y => x ≤ y), hsort]
        rfl
      obtain ⟨e, hee⟩ := Finset.card_eq_one.mp hcard
      have hmem : a ∈ (dm b).filter (fun x => dm x = dm b \ {b}) := by
        rw [← Finset.mem_sort (fun x y => x ≤ y), hsort]
        exact List.mem_cons_self a []
      rw [hee] at hmem ⊢
      rw [Finset.mem_singleton] at hmem
      rw [hmem]
    · rw [hsort] at h
      cases h

theorem idom_exists (blocks : List BBlock) (start : Nat) (univ : Finset Nat)
    (dm : Nat → Finset Nat) (H : DomSetup blocks start univ dm) (b : Nat)
    (hr : Relation.ReflTransGen (edgeOf blocks) start b) (hbs : b ≠ start)
    (hbu : b ∈ univ) :
    ∃ d, (dm b).filter (fun x => dm x = dm b \ {b}) = {d} ∧ d ∈ dm b ∧ d ≠ b ∧
      Relation.ReflTransGen (edgeOf blocks) start d := by
  have hstart_mem : start ∈ dm b :=
    dm_start_mem blocks start univ dm H.hstart H.hinv b
  have hTne : (dm b \ {b}).Nonempty :=
    ⟨start, Finset.mem_sdiff.mpr ⟨hstart_mem, by simp [Ne.symm hbs]⟩⟩
  have hsubT : dm b \ {b} ⊆ dm b := Finset.sdiff_subset
  obtain ⟨d, hdT, hdmax⟩ := finset_chain_max (fun x m => x ∈ dm m) (dm b \ {b}) hTne
    (fun x hx y hy => dm_chain blocks start univ dm H b hr x (hsubT hx) y (hsubT hy))
    (fun x hx y hy z hz hxy hyz =>
      dm_trans blocks start univ dm H z y x
        (dm_subset_univ blocks start univ dm H b hbu (hsubT hz)) hyz hxy)
  have hdb : d ∈ dm b := hsubT hdT
  have hdneb : d ≠ b := by
    have := (Finset.mem_sdiff.mp hdT).2
    simpa using this
  have hdreach : Relation.ReflTransGen (edgeOf blocks) start d :=
    dm_reachable blocks start univ dm H b hr d hdb
  have hdmd : dm d = dm b \ {b} := by
    apply Finset.Subset.antisymm
    · intro x hx
      rw [Finset.mem_sdiff]
      constructor
      · exact dm_trans blocks start univ dm H b d x hbu hdb hx
      · rw [Finset.mem_singleton]
        intro hxb
        rw [hxb] at hx
        exact hdneb (dm_antisymm blocks start univ dm H b d hr hx hdb).symm
    · intro x hxT
      exact hdmax x hxT
  refine ⟨d, ?_, hdb, hdneb, hdreach⟩
  rw [Finset.eq_singleton_iff_unique_mem]
  constructor
  · exact Finset.mem_filter.mpr ⟨hdb, hdmd⟩
  · intro x hx
    obtain ⟨hxdb, hxeq⟩ := Finset.mem_filter.mp hx
    have hxb : x ≠ b := by
      intro hxe
      rw [hxe] at hxeq
      have hbb : b ∈ dm b :=
        dm_self blocks start univ dm H.hs H.hFP b hbu
      rw [hxeq, Finset.mem_sdiff] at hbb
      exact hbb.2 (Finset.mem_singleton_self b)
    have hxT : x ∈ dm b \ {b} := Finset.mem_sdiff.mpr ⟨hxdb, by simp [hxb]⟩
    have h1 : x ∈ dm d := hdmax x hxT
    have h2 : d ∈ dm x := by
      rw [hxeq]
      exact hdT
    exact dm_antisymm blocks start univ dm H x d
      (dm_reachable blocks start univ dm H b hr x hxdb) h1 h2

theorem idom_links (blocks : List BBlock) (start : Nat) (univ : Finset Nat)
    (dm : Nat → Finset Nat) (H : DomSetup blocks start univ dm) :
    ∀ (n b : Nat), (dm b).card = n →
      Relation.ReflTransGen (edgeOf blocks) start b → b ∈ univ →
      Relation.ReflTransGen (fun u v => idomOf dm u = some v) b start := by
  intro n
  induction n using Nat.strong_induction_on with
  | _ n ih =>
    intro b hcard hr hbu
    by_cases hbs : b = start
    · rw [hbs]
    · obtain ⟨d, hfilt, hdb, hdneb, hdr⟩ :=
        idom_exists blocks start univ dm H b hr hbs hbu
      have hidom : idomOf dm b = some d := idomOf_filter_singleton dm b d hfilt
      have hdu : d ∈ univ := dm_subset_univ blocks start univ dm H b hbu hdb
      have hdmd : dm d = dm b \ {b} := by
        have hmem : d ∈ (dm b).filter (fun x => dm x = dm b \ {b}) := by
          rw [hfilt]
          exact Finset.mem_singleton_self d
        exact (Finset.mem_filter.mp hmem).2
      have hbb : b ∈ dm b := dm_self blocks start univ dm H.hs H.hFP b hbu
      have hcard2 : (dm d).card < n := by
        rw [← hcard, hdmd]
        refine Finset.card_lt_card (Finset.sdiff_ssubset ?_ ?_)
        · rw [Finset.singleton_subset_iff]
          exact hbb
        · exact Finset.singleton_nonempty b
      exact Relation.ReflTransGen.head hidom (ih _ hcard2 d rfl hdr hdu)

/-- C7 (amended): for a successful `compute_dominators` run whose entry is
a block and whose successor targets are all block starts, the computed
dominator sets satisfy the fixed-point equations (`dom(start) = {start}`
and, for every other block, `dom(b)` is `{b}` united with the intersection
of the predecessors' sets, the intersection starting from the full block
set); the stored immediate dominator of `b` is `some d` exactly when `d` is
the unique member of `dom(b)` whose dominator set equals `dom(b) - {b}`
(and `none` otherwise — in particular for the entry itself, which is
reachable but has no immediate dominator); and on reachable blocks the
links form a tree rooted at the entry: every reachable block other than the
entry has exactly one immediate dominator, which is a strictly smaller
reachable dominator, and iterating the links from any reachable block
terminates at the entry. -/
theorem c7_dominators (blocks : List BBlock) (start : Nat) (fuel : Nat)
    (dm : Nat → Finset Nat) (idm : Nat → Option Nat)
    (hrun : computeDominators blocks start fuel = some (dm, idm))
    (hstart : start ∈ blocks.map (fun blk => blk.start))
    (hsucc : ∀ blk ∈ blocks, ∀ t ∈ blk.next,
      t ∈ blocks.map (fun blk => blk.start)) :
    dm start = {start} ∧
    (∀ b ∈ blocks.map (fun blk => blk.start), b ≠ start →
      dm b = domRecompute ((blocks.map (fun blk => blk.start)).toFinset) blocks dm b) ∧
    (∀ b d, idm b = some d ↔
      (d ∈ dm b ∧ dm d = dm b \ {b} ∧ ∀ x ∈ dm b, dm x = dm b \ {b} → x = d)) ∧
    idm start = none ∧
    (∀ b, Relation.ReflTransGen (edgeOf blocks) start b → b ≠ start →
      ∃ d, idm b = some d ∧ d ∈ dm b ∧ d ≠ b ∧
        Relation.ReflTransGen (edgeOf blocks) start d) ∧
    (∀ b, Relation.ReflTransGen (edgeOf blocks) start b →
      Relation.ReflTransGen (fun u v => idm u = some v) b start) := by
  simp only [computeDominators, Option.map_eq_some'] at hrun
  obtain ⟨dmI, hiter, heq⟩ := hrun
  have hdm : dm = dmI := (congrArg Prod.fst heq).symm
  have hidm : idm = idomOf dmI := (congrArg Prod.snd heq).symm
  subst hdm
  subst hidm
  have hstartU : start ∈ (blocks.map (fun blk => blk.start)).toFinset :=
    List.mem_toFinset.mpr hstart
  have hsuccU : ∀ blk ∈ blocks, ∀ t ∈ blk.next,
      t ∈ (blocks.map (fun blk => blk.start)).toFinset :=
    fun blk hblk t ht => List.mem_toFinset.mpr (hsucc blk hblk t ht)
  obtain ⟨hFPp, hrest⟩ := domIterate_some _ blocks _ fuel _ dm hiter
  have hstart_notp : start ∉ (blocks.map (fun blk => blk.start)).filter
      (fun s => s ≠ start) := by
    intro hmem
    rw [List.mem_filter] at hmem
    simp at hmem
  have hs : dm start = {start} := by
    rw [hrest start hstart_notp]
    simp
  have hFP : ∀ b, b ∈ (blocks.map (fun blk => blk.start)).toFinset → b ≠ start →
      dm b = domRecompute ((blocks.map (fun blk => blk.start)).toFinset) blocks dm b := by
    intro b hb hbs
    refine (hFPp b ?_).symm
    rw [List.mem_filter]
    exact ⟨List.mem_toFinset.mp hb, by simpa using hbs⟩
  have hinv : DomInvP blocks start ((blocks.map (fun blk => blk.start)).toFinset) dm :=
    domIterate_invP blocks start _ _ fuel _ dm
      (domInvP_init blocks start _) hiter
  have H : DomSetup blocks start ((blocks.map (fun blk => blk.start)).toFinset) dm :=
    ⟨hs, hFP, hsuccU, hstartU, hinv⟩
  have hreach_univ : ∀ b, Relation.ReflTransGen (edgeOf blocks) start b →
      b ∈ (blocks.map (fun blk => blk.start)).toFinset := by
    intro b hr
    cases hr with
    | refl => exact hstartU
    | tail _ he => exact edge_target_univ blocks _ hsuccU _ b he
  have hiff : ∀ b d, idomOf dm b = some d ↔
      (d ∈ dm b ∧ dm d = dm b \ {b} ∧ ∀ x ∈ dm b, dm x = dm b \ {b} → x = d) := by
    intro b d
    constructor
    · intro h
      have hfilt := idomOf_eq_some dm b d h
      have hdmem : d ∈ (dm b).filter (fun x => dm x = dm b \ {b}) := by
        rw [hfilt]
        exact Finset.mem_singleton_self d
      obtain ⟨h1, h2⟩ := Finset.mem_filter.mp hdmem
      refine ⟨h1, h2, ?_⟩
      intro x hx hxeq
      have : x ∈ (dm b).filter (fun y => dm y = dm b \ {b}) :=
        Finset.mem_filter.mpr ⟨hx, hxeq⟩
      rw [hfilt, Finset.mem_singleton] at this
      exact this
    · rintro ⟨h1, h2, h3⟩
      refine idomOf_filter_singleton dm b d ?_
      rw [Finset.eq_singleton_iff_unique_mem]
      refine ⟨Finset.mem_filter.mpr ⟨h1, h2⟩, ?_⟩
      intro x hx
      obtain ⟨hx1, hx2⟩ := Finset.mem_filter.mp hx
      exact h3 x hx1 hx2
  have hnone : idomOf dm start = none := by
    refine idomOf_filter_empty dm start ?_
    rw [Finset.filter_eq_empty_iff]
    intro x hx
    rw [hs, Finset.mem_singleton] at hx
    subst hx
    rw [hs]
    simp
  refine ⟨hs, ?_, hiff, hnone, ?_, ?_⟩
  · intro b hb hbs
    exact hFP b (List.mem_toFinset.mpr hb) hbs
  · intro b hr hbs
    obtain ⟨d, hfilt, hdb, hdneb, hdr⟩ :=
      idom_exists blocks start _ dm H b hr hbs (hreach_univ b hr)
    exact ⟨d, idomOf_filter_singleton dm b d hfilt, hdb, hdneb, hdr⟩
  · intro b hr
    exact idom_links blocks start _ dm H ((dm b).card) b rfl hr (hreach_univ b hr)

def c7blocks : List BBlock := [⟨0, [], [3]⟩, ⟨3, [], []⟩]

def c7univ : Finset Nat := (c7blocks.map (fun b => b.start)).toFinset

def c7dm0 : Nat → Finset Nat := fun b => if b = 0 then {0} else c7univ

def c7dm : Nat → Finset Nat :=
  fun x => if x = 3 then domRecompute c7univ c7blocks c7dm0 3 else c7dm0 x

/-- C7 counterexample: the entry block is trivially reachable, yet its
stored immediate dominator is `None` (no candidate exists for the root), so
the claim's "every reachable block has exactly one immediate dominator"
fails at the entry itself. -/
theorem c7_counterexample :
    computeDominators c7blocks 0 1 = some (c7dm, idomOf c7dm) ∧
    Relation.ReflTransGen (edgeOf c7blocks) 0 0 ∧
    idomOf c7dm 0 = none :=
  ⟨rfl, Relation.ReflTransGen.refl, idomOf_filter_empty c7dm 0 (by decide)⟩

/-- `c7_dominators` at a concrete two-block graph `0 → 3`: the computed
sets are `dom(0) = {0}`, `dom(3) = {0, 3}`, the entry has no immediate
dominator, block 3's immediate dominator is 0, and the links from 3 reach
the entry. -/
theorem c7_dominators_witness :
    computeDominators c7blocks 0 1 = some (c7dm, idomOf c7dm) ∧
    c7dm 0 = {0} ∧ c7dm 3 = {0, 3} ∧
    idomOf c7dm 0 = none ∧ idomOf c7dm 3 = some 0 ∧
    Relation.ReflTransGen (fun u v => idomOf c7dm u = some v) 3 0 := by
  have main := c7_dominators c7blocks 0 1 c7dm (idomOf c7dm) rfl (by decide) (by decide)
  refine ⟨rfl, rfl, by decide, main.2.2.2.1, ?_, ?_⟩
  · exact idomOf_filter_singleton c7dm 3 0 (by decide)
  · refine main.2.2.2.2.2 3 ?_
    exact Relation.ReflTransGen.single
      ⟨⟨0, [], [3]⟩, List.mem_cons_self _ _, rfl, List.mem_cons_self _ _⟩

/-! ## Claim C5 -/

theorem magicToRevision_spec (revs : List Revision)
    (hs : revs.Pairwise (fun a b => a.magic ≤ b.magic)) (m : Nat) :
    (∀ r, magicToRevision revs m = some r →
      r ∈ revs ∧ m ≤ r.magic ∧ ∀ r2 ∈ revs, m ≤ r2.magic → r.magic ≤ r2.magic) ∧
    (magicToRevision revs m = none → ∀ r2 ∈ revs, r2.magic < m) := by
  induction revs with
  | nil => simp [magicToRevision]
  | cons a rest ih =>
    rw [List.pairwise_cons] at hs
    obtain ⟨ha, hrest⟩ := hs
    obtain ⟨ih1, ih2⟩ := ih hrest
    by_cases hm : m ≤ a.magic
    · constructor
      · intro r hr
        rw [magicToRevision, List.find?_cons_of_pos _ (by simpa using hm)] at hr
        cases hr
        refine ⟨by simp, hm, ?_⟩
        intro r2 hr2 _
        rcases List.mem_cons.mp hr2 with h | h
        · subst h; exact Nat.le_refl _
        · exact ha r2 h
      · intro hr
        rw [magicToRevision, List.find?_cons_of_pos _ (by simpa using hm)] at hr
        cases hr
    · constructor
      · intro r hr
        rw [magicToRevision, List.find?_cons_of_neg _ (by simpa using hm)] at hr
        obtain ⟨hmem, hle, hmin⟩ := ih1 r hr
        refine ⟨List.mem_cons_of_mem _ hmem, hle, ?_⟩
        intro r2 hr2 hm2
        rcases List.mem_cons.mp hr2 with h | h
        · subst h; omega
        · exact hmin r2 h hm2
      · intro hr
        rw [magicToRevision, List.find?_cons_of_neg _ (by simpa using hm)] at hr
        intro r2 hr2
        rcases List.mem_cons.mp hr2 with h | h
        · subst h; omega
        · exact ih2 hr r2 h

/-- C5: over a revision list sorted by ascending magic (as `op.py` builds
it), `_magic_to_revision` returns a revision exactly when some revision's
magic is `≥` the requested one; the returned revision has the smallest such
magic (in particular its magic equals the requested one whenever an exact
match exists), and `from_bytecode` answers by looking the byte up in that
revision's table — `None` when every revision's magic is below the request. -/
theorem c5_lookup_contract (revs : List Revision)
    (hs : revs.Pairwise (fun a b => a.magic ≤ b.magic)) (b m : Nat) :
    (∀ r, magicToRevision revs m = some r →
      r ∈ revs ∧ m ≤ r.magic ∧ (∀ r2 ∈ revs, m ≤ r2.magic → r.magic ≤ r2.magic) ∧
      fromBytecode revs b m = r.opcodeToName b) ∧
    (magicToRevision revs m = none →
      (∀ r2 ∈ revs, r2.magic < m) ∧ fromBytecode revs b m = none) ∧
    ((∃ r2 ∈ revs, r2.magic = m) →
      ∃ r, magicToRevision revs m = some r ∧ r.magic = m ∧
        fromBytecode revs b m = r.opcodeToName b) := by
  obtain ⟨h1, h2⟩ := magicToRevision_spec revs hs m
  refine ⟨?_, ?_, ?_⟩
  · intro r hr
    obtain ⟨hmem, hle, hmin⟩ := h1 r hr
    exact ⟨hmem, hle, hmin, by rw [fromBytecode, hr]⟩
  · intro hr
    exact ⟨h2 hr, by rw [fromBytecode, hr]⟩
  · rintro ⟨r2, hr2, hr2m⟩
    cases hfind : magicToRevision revs m with
    | none =>
      have := h2 hfind r2 hr2
      omega
    | some r =>
      obtain ⟨hmem, hle, hmin⟩ := h1 r hfind
      have := hmin r2 hr2 (by omega)
      refine ⟨r, rfl, by omega, by rw [fromBytecode, hfind]⟩

/-- A two-revision table for concrete lookups. -/
def exRevs : List Revision :=
  [⟨100, "2.0", false, fun b => if b = 1 then some "LOW" else none⟩,
   ⟨200, "3.1", true, fun b => if b = 1 then some "HIGH" else none⟩]

theorem c5_lookup_contract_witness :
    exRevs.Pairwise (fun a b => a.magic ≤ b.magic) ∧
    (∀ r, magicToRevision exRevs 150 = some r →
      r ∈ exRevs ∧ 150 ≤ r.magic ∧ (∀ r2 ∈ exRevs, 150 ≤ r2.magic → r.magic ≤ r2.magic) ∧
      fromBytecode exRevs 1 150 = r.opcodeToName 1) := by
  have hp : exRevs.Pairwise (fun a b => a.magic ≤ b.magic) := by
    simp [exRevs, List.pairwise_cons]
  exact ⟨hp, (c5_lookup_contract exRevs hp 1 150).1⟩

/-! ## Claim C4 -/

/-- Little-endian encoding of an unsigned 32-bit value. -/
def u32Bytes (n : Nat) : List Nat :=
  [n % 256, n / 256 % 256, n / 65536 % 256, n / 16777216 % 256]

theorem readUInt32_u32Bytes (n : Nat) (hn : n < 4294967296) (rest : List Nat) :
    readUInt32 (u32Bytes n ++ rest) = .ok (n, rest) := by
  simp only [u32Bytes, List.cons_append, List.nil_append, readUInt32, Except.ok.injEq,
    Prod.mk.injEq, and_true]
  omega

theorem disassembleModule_reduce (revs : List Revision) (hasArg : String → Bool)
    (fuel : Nat) (bytes bytes2 body : List Nat) (magic ts : Nat)
    (h1 : readUInt32 bytes = .ok (magic, bytes2))
    (h2 : readUInt32 bytes2 = .ok (ts, body)) :
    disassembleModule revs hasArg fuel bytes =
      match pythonVersionFromMagic revs magic with
      | none => .error (.unknownMagic magic)
      | some version =>
        if version = "" then .error (.unknownMagic magic)
        else
          match unmarshalNode ⟨⟨fun b => fromBytecode revs b magic, hasArg⟩,
              hasKwonlyargcount revs magic⟩ fuel body [] with
          | .error e => .error e
          | .ok (moduleBody, _, _) => .ok ⟨magic, ts, "Python " ++ version, moduleBody⟩ := by
  rw [disassembleModule, h1]
  simp only
  rw [h2]

/-- C4 (amended): the disassembler fails with the invalid-magic error
exactly when no supported revision's magic is `≥` the file's magic (given
revisions with nonempty version strings).  When some revision's magic is
`≥` it — in particular for every *unknown* magic below the largest known
one — the header check passes and the result is whatever unmarshalling of
the body produces, using the fallback revision's version string. -/
theorem c4_unknown_magic (revs : List Revision) (hasArg : String → Bool) (fuel : Nat)
    (hversions : ∀ r ∈ revs, r.version ≠ "")
    (magic ts : Nat) (hm : magic < 4294967296) (hts : ts < 4294967296)
    (body : List Nat) :
    (magicToRevision revs magic = none ↔ ∀ r ∈ revs, r.magic < magic) ∧
    (match magicToRevision revs magic with
     | none =>
       disassembleModule revs hasArg fuel (u32Bytes magic ++ u32Bytes ts ++ body) =
         .error (.unknownMagic magic)
     | some r =>
       disassembleModule revs hasArg fuel (u32Bytes magic ++ u32Bytes ts ++ body) =
         (unmarshalNode ⟨⟨fun b => fromBytecode revs b magic, hasArg⟩,
             hasKwonlyargcount revs magic⟩ fuel body []).map
           (fun p => ⟨magic, ts, "Python " ++ r.version, p.1⟩)) := by
  have h1 : readUInt32 (u32Bytes magic ++ (u32Bytes ts ++ body)) =
      .ok (magic, u32Bytes ts ++ body) := readUInt32_u32Bytes magic hm _
  have h2 : readUInt32 (u32Bytes ts ++ body) = .ok (ts, body) :=
    readUInt32_u32Bytes ts hts _
  have hred := disassembleModule_reduce revs hasArg fuel _ _ _ magic ts h1 h2
  rw [List.append_assoc]
  constructor
  · rw [magicToRevision, List.find?_eq_none]
    constructor
    · intro h r hr
      have := h r hr
      simp at this
      omega
    · intro h r hr
      simpa using Nat.not_le.mpr (h r hr)
  · cases hfind : magicToRevision revs magic with
    | none =>
      rw [hred, pythonVersionFromMagic, hfind]
      rfl
    | some r =>
      have hmem : r ∈ revs := List.mem_of_find?_eq_some hfind
      have hv : r.version ≠ "" := hversions r hmem
      rw [hred, pythonVersionFromMagic, hfind]
      simp only [Option.map_some']
      rw [if_neg hv]
      cases unmarshalNode ⟨⟨fun b => fromBytecode revs b magic, hasArg⟩,
          hasKwonlyargcount revs magic⟩ fuel body [] with
      | error e => rfl
      | ok p =>
        obtain ⟨b2, rest2, tab2⟩ := p
        rfl

/-- C4 counterexample: magic 50 is not the magic of any supported revision
in the (sorted, nonempty-version) table `exRevs`, yet `disassemble` does
not fail — it decodes the body with the fallback revision of magic 100. -/
theorem c4_counterexample :
    (∀ r ∈ exRevs, r.magic ≠ 50) ∧
    disassembleModule exRevs (fun _ => false) 1
        (u32Bytes 50 ++ u32Bytes 7 ++ [78]) =
      .ok ⟨50, 7, "Python 2.0", .pyNone⟩ := by
  constructor
  · intro r hr
    simp only [exRevs, List.mem_cons, List.mem_singleton] at hr
    rcases hr with h | h | h
    · rw [h]; decide
    · rw [h]; decide
    · cases h
  · have h1 : readUInt32 (u32Bytes 50 ++ (u32Bytes 7 ++ [78])) =
        .ok (50, u32Bytes 7 ++ [78]) := readUInt32_u32Bytes 50 (by norm_num) _
    have h2 : readUInt32 (u32Bytes 7 ++ [78]) = .ok (7, [78]) :=
      readUInt32_u32Bytes 7 (by norm_num) _
    rw [List.append_assoc]
    rw [disassembleModule_reduce exRevs (fun _ => false) 1 _ _ _ 50 7 h1 h2]
    rw [show pythonVersionFromMagic exRevs 50 = some "2.0" from rfl]
    simp only
    rw [if_neg (by decide)]
    rw [show unmarshalNode ⟨⟨fun b => fromBytecode exRevs b 50, fun _ => false⟩,
        hasKwonlyargcount exRevs 50⟩ 1 [78] [] = .ok (.pyNone, [], []) from by
      rw [unmarshalNode]
      rfl]
    rfl

/-! ## Claim C6 -/

/-- Little-endian encoding of an unsigned 16-bit digit. -/
def u16Bytes (d : Nat) : List Nat := [d % 256, d / 256]

/-- `Σ digits[i] * 2 ^ (15 * i)` in Horner form: the value the spec ascribes
to an `l`-tagged integer's digit sequence. -/
def longVal : List Nat → Nat
  | [] => 0
  | d :: ds => d + 32768 * longVal ds

theorem int_lor_ofNat (a b : Nat) :
    Int.lor (a : Int) (b : Int) = ((a ||| b : Nat) : Int) := rfl

theorem int_shift_ofNat (d i : Nat) :
    ((d : Int) <<< ((i : Int) * 15)) = ((d * 2 ^ (i * 15) : Nat) : Int) := by
  have h15 : ((i : Int) * 15) = ((i * 15 : Nat) : Int) := by push_cast; ring
  rw [h15, Int.shiftLeft_coe_nat, Nat.shiftLeft_eq]

theorem readLongDigits_spec (rest : List Nat) :
    ∀ digits : List Nat, (∀ d ∈ digits, d < 32768) →
      ∀ i acc : Nat, acc < 2 ^ (i * 15) →
        readLongDigits digits.length i (acc : Int) (digits.flatMap u16Bytes ++ rest) =
          .ok (((acc + 2 ^ (i * 15) * longVal digits : Nat) : Int), rest) := by
  intro digits
  induction digits with
  | nil =>
    intro _ i acc _
    simp [readLongDigits, longVal]
  | cons d ds ih =>
    intro hlt i acc hacc
    have hd : d < 32768 := hlt d (by simp)
    have hv : d % 256 + 256 * (d / 256) = d := by omega
    rw [List.length_cons, List.flatMap_cons, readLongDigits]
    have hr16 : readInt16 (u16Bytes d ++ ds.flatMap u16Bytes ++ rest) =
        .ok ((d : Int), ds.flatMap u16Bytes ++ rest) := by
      simp only [u16Bytes, List.cons_append, List.nil_append, readInt16]
      rw [hv, if_pos (by omega)]
    rw [hr16]
    show readLongDigits ds.length (i + 1)
        (Int.lor (acc : Int) ((d : Int) <<< ((i : Int) * 15)))
        (ds.flatMap u16Bytes ++ rest) = _
    rw [int_shift_ofNat, int_lor_ofNat]
    have hpos : (0 : Nat) < 2 ^ (i * 15) := Nat.pos_pow_of_pos _ (by norm_num)
    have hor : (acc ||| d * 2 ^ (i * 15) : Nat) = acc + 2 ^ (i * 15) * d := by
      rw [Nat.mul_comm d (2 ^ (i * 15))]
      rw [Nat.lor_comm]
      have h1 := Nat.mul_add_lt_is_or (i := i * 15) hacc d
      omega
    rw [hor]
    have hbound : acc + 2 ^ (i * 15) * d < 2 ^ ((i + 1) * 15) := by
      have h1 : acc + 2 ^ (i * 15) * d < 2 ^ (i * 15) * (d + 1) := by
        have h2 : 2 ^ (i * 15) * (d + 1) = 2 ^ (i * 15) * d + 2 ^ (i * 15) := by ring
        omega
      have h3 : 2 ^ (i * 15) * (d + 1) ≤ 2 ^ (i * 15) * 32768 :=
        Nat.mul_le_mul_left _ (by omega)
      have h4 : 2 ^ (i * 15) * 32768 = 2 ^ ((i + 1) * 15) := by
        rw [show (i + 1) * 15 = i * 15 + 15 by ring, pow_add]
        norm_num
      omega
    rw [ih (fun x hx => hlt x (by simp [hx])) (i + 1) (acc + 2 ^ (i * 15) * d) hbound]
    congr 2
    rw [longVal]
    have h4 : 2 ^ ((i + 1) * 15) = 2 ^ (i * 15) * 32768 := by
      rw [show (i + 1) * 15 = i * 15 + 15 by ring, pow_add]
      norm_num
    rw [h4]
    ring

/-- C6 (amended): the `l` branch reads the `i32` digit count, returns 0 on a
zero count, and otherwise reads `|count|` digits with the *signed* 16-bit
reader, OR-ing `digit << (15 * i)` into the accumulator.  For digit values
below `2^15` — the only values real marshal data contains, and the premise
under which the claim's formula is meaningful — the result is
`Σ digits[i] * 2^(15*i)`, negated exactly when the count is negative.  (For
a digit with bit 15 set the source deviates from the claim: see the
counterexample.) -/
theorem c6_long_decoding (ctx : DisCtx) (fuel : Nat) (bytes rest : List Nat)
    (tab : List (List Nat)) (nbits : Int) (digits : List Nat)
    (h32 : readInt32 bytes = .ok (nbits, digits.flatMap u16Bytes ++ rest))
    (hlen : digits.length = nbits.natAbs)
    (hdig : ∀ d ∈ digits, d < 32768) :
    unmarshalNode ctx (fuel + 1) (108 :: bytes) tab =
      .ok (.int (if nbits = 0 then 0
          else if 0 < nbits then (longVal digits : Int) else -(longVal digits : Int)),
        (if nbits = 0 then digits.flatMap u16Bytes ++ rest else rest), tab) := by
  rw [unmarshalNode]
  show (do
      let (nbits2, bytes2) ← readInt32 bytes
      unmarshalLong nbits2 bytes2 tab) = _
  rw [h32]
  show unmarshalLong nbits (digits.flatMap u16Bytes ++ rest) tab = _
  rw [unmarshalLong]
  by_cases hz : nbits = 0
  · rw [if_pos hz, if_pos hz, if_pos hz]
  · rw [if_neg hz, if_neg hz, if_neg hz]
    have hspec := readLongDigits_spec rest digits hdig 0 0 (by norm_num)
    rw [hlen] at hspec
    rw [show ((0 : Nat) : Int) = (0 : Int) from rfl] at hspec
    rw [hspec]
    simp only
    norm_num

/-- C6 counterexample: one digit with byte encoding `[0x00, 0x80]` (the
unsigned 16-bit value 32768, high bit set).  The source reads it with the
signed `'=h'` format and produces −32768, which is neither the claim's
`digit × 2^0 = 32768` nor the 15-low-bits value 0. -/
theorem nat_ldiff_zero (n : Nat) : Nat.ldiff n 0 = n := by
  apply Nat.eq_of_testBit_eq
  intro k
  rw [Nat.testBit_ldiff]
  simp

theorem int_zero_lor (m : Int) : Int.lor 0 m = m := by
  cases m with
  | ofNat n =>
    show Int.lor (Int.ofNat 0) (Int.ofNat n) = Int.ofNat n
    show Int.ofNat ((0 : Nat) ||| n) = Int.ofNat n
    rw [Nat.zero_or]
  | negSucc n =>
    show Int.negSucc (Nat.ldiff n 0) = Int.negSucc n
    rw [nat_ldiff_zero]

theorem c6_counterexample :
    unmarshalNode emptyCtx 1 [108, 1, 0, 0, 0, 0, 128] [] =
      .ok (.int (-32768), [], []) ∧
    (-32768 : Int) ≠ 32768 ∧ (-32768 : Int) ≠ 0 := by
  refine ⟨?_, by decide, by decide⟩
  rw [unmarshalNode]
  show (do
      let (nbits2, bytes2) ← readInt32 [1, 0, 0, 0, 0, 128]
      unmarshalLong nbits2 bytes2 []) = _
  rw [show readInt32 [1, 0, 0, 0, 0, 128] = .ok (1, [0, 128]) from by
    norm_num [readInt32]]
  show unmarshalLong 1 [0, 128] [] = _
  rw [unmarshalLong, if_neg (by decide)]
  rw [show readLongDigits (1 : Int).natAbs 0 0 [0, 128] =
      .ok (Int.lor 0 ((-32768 : Int) <<< (0 : Int)), []) from rfl]
  rw [int_zero_lor]
  rfl

theorem c6_long_decoding_witness :
    unmarshalNode emptyCtx 1 [108, 2, 0, 0, 0, 1, 0, 2, 0] [] =
      .ok (.int (if (2 : Int) = 0 then 0
          else if 0 < (2 : Int) then (longVal [1, 2] : Int) else -(longVal [1, 2] : Int)),
        (if (2 : Int) = 0 then ([1, 2] : List Nat).flatMap u16Bytes ++ [] else []), []) :=
  c6_long_decoding emptyCtx 0 [2, 0, 0, 0, 1, 0, 2, 0] [] [] 2 [1, 2]
    (by rfl) (by rfl) (by decide)

theorem c4_unknown_magic_witness :
    (∀ r ∈ exRevs, r.version ≠ "") ∧
    (magicToRevision exRevs 300 = none ↔ ∀ r ∈ exRevs, r.magic < 300) := by
  have hv : ∀ r ∈ exRevs, r.version ≠ "" := by
    intro r hr
    simp only [exRevs, List.mem_cons, List.mem_singleton] at hr
    rcases hr with h | h | h
    · rw [h]; decide
    · rw [h]; decide
    · cases h
  exact ⟨hv, (c4_unknown_magic exRevs (fun _ => false) 1 hv 300 7
    (by norm_num) (by norm_num) []).1⟩

end Unwind
